import Mathlib

/-!
Verification of the WebSocket dependency-injection and event-dispatch core
of the `apps/backend` service (files `src/websockets/dependencies/core.py`,
`src/websockets/params.py`, `src/websockets/server.py`,
`src/utils/utils.py`).

The Python code is embedded shallowly:

* Python runtime values become the inductive `Value`;
* Python exceptions relevant to the wrapper become `PyErr`;
* a dependency callable becomes a `FuncData`: its classified parameter
  list (the deterministic outcome of `get_param_depend` /
  `annotation in (SID, Environ)` / default checks performed by
  `extract_kwargs_from_signature`), its body (a Lean function from
  keyword arguments to a result) and its execution shape (plain value /
  coroutine / sync generator / async generator);
* the per-dispatch mutable state (`cache` dict, `LifespanContext.teardowns`
  list) is threaded explicitly through a `DispatchState`, extended with a
  `trace` of body invocations and teardown executions so that
  "executes exactly once" claims can be stated;
* the mutually recursive `solve_dependency` / `extract_kwargs_from_signature`
  pair is implemented with an explicit fuel argument (structural recursion
  on the fuel), the extraction loop being parametric in the solver so that
  it stays structurally recursive on the parameter list.  Fuel exhaustion
  returns `none` and corresponds to Python recursing forever (an unbounded
  dependency cycle).
-/

namespace Spec2Proof

/-- Python runtime values, as far as the dispatch core inspects them. -/
inductive Value where
  | none
  | int (n : Int)
  | str (s : String)
  | bool (b : Bool)
  | dict (entries : List (String × Value))
  | model (name : String) (fields : List (String × Value))
  | list (xs : List Value)

/-- `type(v).__name__` for the embedded values. -/
def typeName : Value → String
  | .none => "NoneType"
  | .int _ => "int"
  | .str _ => "str"
  | .bool _ => "bool"
  | .dict _ => "dict"
  | .model n _ => n
  | .list _ => "list"

/-- The exceptions the event wrapper distinguishes: `pydantic.ValidationError`
(carrying its `errors()` list as `(loc, msg)` pairs), `TypeError`, and any
other exception. -/
inductive PyErr where
  | validation (errs : List (List String × String))
  | typeError (msg : String)
  | other (msg : String)
deriving DecidableEq

/-- Keys of the per-dispatch resolution cache: a dependency callable's
identity, or one of the reserved seed keys `__sid__`, `__data__`,
`__environ__`. -/
inductive CacheKey where
  | func (f : Nat)
  | sid
  | data
  | environ
deriving DecidableEq

/-- Lookup in the cache dict (first binding wins; `writeCache` conses, so a
later `cache[k] = v` shadows an earlier binding, matching dict update). -/
def cacheGet (k : CacheKey) : List (CacheKey × Value) → Option Value
  | [] => Option.none
  | (k', v) :: rest => if k' = k then Option.some v else cacheGet k rest

/-- `cache[.func f] = v` (dict assignment). -/
def writeCache (f : Nat) (v : Value) (c : List (CacheKey × Value)) :
    List (CacheKey × Value) :=
  (CacheKey.func f, v) :: c

/-- A Pydantic model class, reduced to what `resolve_unknown_param` needs:
a class name and required typed fields. -/
inductive FieldType where
  | str
  | int
deriving DecidableEq

structure ModelClass where
  name : String
  fields : List (String × FieldType)
deriving DecidableEq

/-- `annotation(**entries)`: validate each declared field of the model
against the payload mapping, collecting pydantic-style `(loc, msg)` errors;
on success produce a model instance with the declared fields. -/
def validateField (entries : List (String × Value)) :
    String × FieldType → Except (List String × String) (String × Value)
  | (fname, ft) =>
    match entries.lookup fname with
    | Option.none => .error ([fname], "Field required")
    | Option.some v =>
      match ft, v with
      | .str, .str s => .ok (fname, .str s)
      | .int, .int n => .ok (fname, .int n)
      | .str, _ => .error ([fname], "Input should be a valid string")
      | .int, _ => .error ([fname], "Input should be a valid integer")

/-- The `(loc, msg)` pairs collected from the per-field validation. -/
def modelErrors (mc : ModelClass) (entries : List (String × Value)) :
    List (List String × String) :=
  (mc.fields.map (validateField entries)).filterMap fun r =>
    match r with
    | .error e => Option.some e
    | .ok _ => Option.none

/-- The coerced fields of a successfully validated model. -/
def modelFields (mc : ModelClass) (entries : List (String × Value)) :
    List (String × Value) :=
  (mc.fields.map (validateField entries)).filterMap fun r =>
    match r with
    | .ok fv => Option.some fv
    | .error _ => Option.none

def validateModel (mc : ModelClass) (entries : List (String × Value)) :
    Except PyErr Value :=
  if modelErrors mc entries = [] then
    .ok (.model mc.name (modelFields mc entries))
  else
    .error (.validation (modelErrors mc entries))

/-- The classification `extract_kwargs_from_signature` computes for one
parameter, in the order the code checks: a declared `Depends` (callable id
plus its `use_cache` flag), an `SID` / `Environ` annotation, a declared
default, or unknown (payload slot, with an optional model-class
annotation). -/
inductive ParamKind where
  | depends (d : Nat) (use_cache : Bool)
  | sid
  | environ
  | defaulted (v : Value)
  | unknown (ann : Option ModelClass)

structure Param where
  name : String
  kind : ParamKind

/-- How invoking the callable behaves: `run_with_lifespan_handling`
distinguishes async generators, sync generators, coroutines and plain
values.  For generators, `cleanupErr` is the exception (if any) raised by
the post-`yield` half when the teardown advances the generator again. -/
inductive FuncShape where
  | plain
  | coroutine
  | gen (cleanupErr : Option PyErr)
  | asyncgen (cleanupErr : Option PyErr)

/-- A dependency callable: classified signature, body and shape.  The body
maps the resolved keyword arguments to the produced value (the first
yielded value for generators, the awaited result for coroutines, the
return value otherwise) or to a raised exception. -/
structure FuncData where
  params : List Param
  call : List (String × Value) → Except PyErr Value
  shape : FuncShape

/-- A dependency environment: callables are identified by their index.
An out-of-range id denotes an inert callable with no parameters. -/
def defaultFunc : FuncData :=
  { params := [], call := fun _ => .ok .none, shape := .plain }

def Env : Type := List FuncData

def getF (env : Env) (f : Nat) : FuncData :=
  env.getD f defaultFunc

/-- A registered teardown callback: which callable's generator it advances,
and the exception (if any) that its cleanup half raises. -/
structure Teardown where
  f : Nat
  err : Option PyErr
deriving DecidableEq

/-- Observable events of one dispatch: a callable's body executing
(`invoke`, counted once per `run_with_lifespan_handling` call) and a
generator's post-yield cleanup half executing (`cleanup`). -/
inductive Event where
  | invoke (f : Nat)
  | cleanup (f : Nat)
deriving DecidableEq

/-- The per-dispatch mutable state: the resolution cache dict, the
`LifespanContext.teardowns` list (append order = registration order), and
the event trace. -/
structure DispatchState where
  cache : List (CacheKey × Value)
  teardowns : List Teardown
  trace : List Event

/-- `resolve_special_param`: look up `__sid__` / `__environ__` in the cache
(`cache.get`, hence `None` when absent). -/
def resolve_special_param (k : CacheKey) (cache : List (CacheKey × Value)) :
    Value :=
  (cacheGet k cache).getD .none

/-- `resolve_unknown_param`: if the annotation is a Pydantic model class,
`annotation(**cache["__data__"])` — a `TypeError` when the payload is not a
mapping, otherwise model validation; else the raw payload unchanged. -/
def resolve_unknown_param (ann : Option ModelClass)
    (cache : List (CacheKey × Value)) : Except PyErr Value :=
  let data := (cacheGet .data cache).getD .none
  match ann with
  | Option.some mc =>
    match data with
    | .dict entries => validateModel mc entries
    | v => .error (.typeError
        ("argument after ** must be a mapping, not " ++ typeName v))
  | Option.none => .ok data

/-- `run_with_lifespan_handling`: invoke the callable's body (recorded as an
`invoke` event), and for generator shapes register the teardown that will
run the post-yield half. -/
def run_with_lifespan_handling (env : Env) (f : Nat)
    (kwargs : List (String × Value)) (st : DispatchState) :
    Except PyErr Value × DispatchState :=
  let st1 := { st with trace := st.trace ++ [.invoke f] }
  match (getF env f).call kwargs with
  | .error e => (.error e, st1)
  | .ok v =>
    match (getF env f).shape with
    | .gen ce => (.ok v, { st1 with teardowns := st1.teardowns ++ [⟨f, ce⟩] })
    | .asyncgen ce =>
      (.ok v, { st1 with teardowns := st1.teardowns ++ [⟨f, ce⟩] })
    | .coroutine => (.ok v, st1)
    | .plain => (.ok v, st1)

/-- The parameter-classification loop of `extract_kwargs_from_signature`,
parametric in the solver used for nested `Depends` parameters.  Returns the
keyword bindings in iteration order plus the collected unknown parameters
(name, annotation) in declaration order; `none` is fuel exhaustion inside a
nested resolution. -/
def extractLoop
    (sv : Nat → Bool → DispatchState →
      Option (Except PyErr Value × DispatchState)) :
    List Param → DispatchState →
    Option (Except PyErr
      (List (String × Value) × List (String × Option ModelClass)) ×
      DispatchState)
  | [], st => Option.some (.ok ([], []), st)
  | p :: rest, st =>
    match p.kind with
    | .depends d uc =>
      match sv d uc st with
      | Option.none => Option.none
      | Option.some (.error e, st') => Option.some (.error e, st')
      | Option.some (.ok v, st') =>
        match extractLoop sv rest st' with
        | Option.none => Option.none
        | Option.some (.error e, st'') => Option.some (.error e, st'')
        | Option.some (.ok (kws, us), st'') =>
          Option.some (.ok ((p.name, v) :: kws, us), st'')
    | .sid =>
      match extractLoop sv rest st with
      | Option.none => Option.none
      | Option.some (.error e, st'') => Option.some (.error e, st'')
      | Option.some (.ok (kws, us), st'') =>
        Option.some (.ok ((p.name, resolve_special_param .sid st.cache) :: kws,
          us), st'')
    | .environ =>
      match extractLoop sv rest st with
      | Option.none => Option.none
      | Option.some (.error e, st'') => Option.some (.error e, st'')
      | Option.some (.ok (kws, us), st'') =>
        Option.some (.ok
          ((p.name, resolve_special_param .environ st.cache) :: kws, us), st'')
    | .defaulted v =>
      match extractLoop sv rest st with
      | Option.none => Option.none
      | Option.some (.error e, st'') => Option.some (.error e, st'')
      | Option.some (.ok (kws, us), st'') =>
        Option.some (.ok ((p.name, v) :: kws, us), st'')
    | .unknown ann =>
      match extractLoop sv rest st with
      | Option.none => Option.none
      | Option.some (.error e, st'') => Option.some (.error e, st'')
      | Option.some (.ok (kws, us), st'') =>
        Option.some (.ok (kws, (p.name, ann) :: us), st'')

/-- `extract_kwargs_from_signature`: run the classification loop, then bind
the first unknown parameter (if any) from the payload. -/
def extract_kwargs_from_signature
    (sv : Nat → Bool → DispatchState →
      Option (Except PyErr Value × DispatchState))
    (ps : List Param) (st : DispatchState) :
    Option (Except PyErr (List (String × Value)) × DispatchState) :=
  match extractLoop sv ps st with
  | Option.none => Option.none
  | Option.some (.error e, st') => Option.some (.error e, st')
  | Option.some (.ok (kws, us), st') =>
    match us with
    | [] => Option.some (.ok kws, st')
    | (n, ann) :: _ =>
      match resolve_unknown_param ann st'.cache with
      | .error e => Option.some (.error e, st')
      | .ok v => Option.some (.ok (kws ++ [(n, v)]), st')

/-- `solve_dependency`: cache check, recursive argument extraction, body
invocation with lifespan handling, cache write on success.  Structural
recursion on the fuel; `none` means the fuel ran out (an unbounded
dependency cycle in Python). -/
def solve_dependency (env : Env) :
    Nat → Nat → Bool → DispatchState →
    Option (Except PyErr Value × DispatchState)
  | 0, _, _, _ => Option.none
  | fuel + 1, f, use_cache, st =>
    if use_cache ∧ (cacheGet (.func f) st.cache).isSome then
      Option.some (.ok ((cacheGet (.func f) st.cache).getD .none), st)
    else
      match extract_kwargs_from_signature (solve_dependency env fuel)
          (getF env f).params st with
      | Option.none => Option.none
      | Option.some (.error e, st') => Option.some (.error e, st')
      | Option.some (.ok kws, st') =>
        match run_with_lifespan_handling env f kws st' with
        | (.error e, st'') => Option.some (.error e, st'')
        | (.ok v, st'') =>
          Option.some (.ok v,
            if use_cache then { st'' with cache := writeCache f v st''.cache }
            else st'')

/-- `LifespanContext.run_teardowns` body: iterate over the given list (the
already-reversed teardowns), awaiting each; a raised exception aborts the
loop and propagates. -/
def runTeardownList : List Teardown → DispatchState →
    Option PyErr × DispatchState
  | [], st => (Option.none, st)
  | t :: rest, st =>
    let st' := { st with trace := st.trace ++ [.cleanup t.f] }
    match t.err with
    | Option.some e => (Option.some e, st')
    | Option.none => runTeardownList rest st'

/-- `LifespanContext.run_teardowns`: run every registered teardown in
reverse registration order. -/
def run_teardowns (st : DispatchState) : Option PyErr × DispatchState :=
  runTeardownList st.teardowns.reverse st

/-- ASCII lowercasing of one character (`str.lower` restricted to the
ASCII alphabet, which covers every message the embedded validation
produces). -/
def lowerChar (c : Char) : Char :=
  if c.toNat ≥ 65 ∧ c.toNat ≤ 90 then Char.ofNat (c.toNat + 32) else c

/-- `str.lower` for ASCII strings. -/
def lowerString (s : String) : String :=
  String.mk (s.data.map lowerChar)

/-- `utils.format_validation_errors`: `"; "`-join each violation's
dot-joined location and lowercased message. -/
def format_validation_errors (errs : List (List String × String)) : String :=
  String.intercalate "; " (errs.map fun item =>
    String.intercalate "." item.1 ++ " " ++ lowerString item.2)

/-- One `self.emit("error", SocketErrorResponse(...), to=sid)` performed by
the wrapper. -/
structure EmitRecord where
  target : String
  code : Nat
  event : String
  message : String
  data : String
deriving DecidableEq

/-- Outcome of one wrapped dispatch: the error events emitted, the
exception escaping the wrapper (if any), and the final state. -/
structure WrapperResult where
  emits : List EmitRecord
  raised : Option PyErr
  final : DispatchState

/-- The seed state the wrapper builds: `__sid__`, `__data__` (first
positional argument, else `None`) and `__environ__` (the `environ` keyword
argument, else `{}`). -/
def seedState (sid : String) (args : List Value) (environ : Option Value) :
    DispatchState :=
  { cache := [(.sid, .str sid), (.data, args.headD .none),
      (.environ, environ.getD (.dict []))],
    teardowns := [], trace := [] }

/-- The event wrapper installed by `AsyncServer.on`: build the seed state,
solve the handler as a dependency, translate `ValidationError` /
`TypeError` into an `error` emission to the originating sid and re-raise,
and run the teardowns in a `finally` block (an exception raised there
replaces the in-flight one). -/
def dispatchEvent (env : Env) (fuel : Nat) (handler : Nat)
    (event sid : String) (args : List Value) (environ : Option Value) :
    Option WrapperResult :=
  let data := args.headD .none
  let st0 := seedState sid args environ
  match solve_dependency env fuel handler true st0 with
  | Option.none => Option.none
  | Option.some (res, st1) =>
    let emits : List EmitRecord :=
      match res with
      | .error (.validation errs) =>
        [⟨sid, 1007, event, "Data Validation Error.",
          format_validation_errors errs⟩]
      | .error (.typeError _) =>
        [⟨sid, 1003, event, "Data Type Error.",
          "TypeError: expected a \x27map\x27, but received an \x27" ++
            typeName data ++ "\x27."⟩]
      | _ => []
    let pending : Option PyErr :=
      match res with
      | .error e => Option.some e
      | .ok _ => Option.none
    let tear := run_teardowns st1
    Option.some ⟨emits,
      match tear.1 with
      | Option.some te => Option.some te
      | Option.none => pending,
      tear.2⟩

/-- `AsyncServer._call_handler`'s argument normalization, as the positional
arguments plus optional `environ` keyword that the handler receives. -/
structure HandlerCall where
  pos : List Value
  environ : Option Value

def call_handler (event : String) (args : List Value) : HandlerCall :=
  if event = "connect" then
    match args with
    | [a0, a1, a2] => ⟨[a0, a2], Option.some a1⟩
    | [a0, a1] => ⟨[a0], Option.some a1⟩
    | _ => ⟨args, Option.none⟩
  else if event = "disconnect" then
    ⟨args.dropLast, Option.none⟩
  else
    ⟨args, Option.none⟩

/-- A Pydantic model as seen by `AsyncServer._pydantic_model_to_dict`: its
named serializer methods (each producing a plain mapping) and its
`model_dump()` result. -/
structure PModel where
  methods : List (String × Value)
  modelDump : Value

/-- A value handed to `AsyncServer.emit`: a Pydantic model or anything
else. -/
inductive EmitData where
  | model (m : PModel)
  | plain (v : Value)

/-- `AsyncServer._pydantic_model_to_dict`: for a model, use the named
serializer method when it is not `model_dump` and the model has it,
falling back to `model_dump()`; non-model data passes through unchanged. -/
def pydantic_model_to_dict (data : EmitData) (serializer : String) :
    EmitData :=
  match data with
  | .model m =>
    if serializer ≠ "model_dump" ∧ (m.methods.lookup serializer).isSome then
      .plain ((m.methods.lookup serializer).getD m.modelDump)
    else
      .plain m.modelDump
  | .plain v => .plain v

/-- The data transformation `AsyncServer.emit` applies before handing the
payload to the underlying transport. -/
def emitWire (data : EmitData) (serializer : String) : EmitData :=
  pydantic_model_to_dict data serializer

/-! ### Auxiliary predicates used by the theorems -/

/-- Whether a parameter's reference to callable `c` (if any) keeps caching
on: a `Depends` parameter pointing at `c` must carry `use_cache=True`;
every other parameter is unconstrained. -/
def refToCached (c : Nat) : ParamKind → Bool
  | .depends d uc => if d = c then uc else true
  | _ => true

/-- Acyclicity witness check for one parameter: a `Depends` parameter of
callable `i` must point strictly down a rank function. -/
def rankOk (rank : Nat → Nat) (i : Nat) : ParamKind → Bool
  | .depends d _ => decide (rank d < rank i)
  | _ => true

/-- Every `Depends` reference to callable `c` anywhere in the environment
declares `use_cache=True`; references to other callables may use any
flag. -/
def refsCached (env : Env) (c : Nat) : Prop :=
  ∀ i : Nat, ∀ p ∈ (getF env i).params, refToCached c p.kind = true

/-- The dependency graph is acyclic, witnessed by a rank function. -/
def Ranked (env : Env) (rank : Nat → Nat) : Prop :=
  ∀ i : Nat, ∀ p ∈ (getF env i).params, rankOk rank i p.kind = true

/-- How many times callable `g`'s body has executed in a trace. -/
def countInvoke (g : Nat) (tr : List Event) : Nat :=
  tr.count (.invoke g)

/-- The per-callable at-most-once invariant: callable `c`'s body has run
exactly once if `c` is a cache key and never otherwise. -/
def ExactFor (c : Nat) (st : DispatchState) : Prop :=
  countInvoke c st.trace =
    if (cacheGet (.func c) st.cache).isSome then 1 else 0

/-- The weaker bound holding on states escaping through an exception:
callable `c`'s body has run at most once. -/
def WeakFor (c : Nat) (st : DispatchState) : Prop :=
  countInvoke c st.trace ≤ 1

/-- The unknown (payload-slot) parameters of a signature, in declaration
order. -/
def unknownsOf : List Param → List (String × Option ModelClass)
  | [] => []
  | p :: rest =>
    match p.kind with
    | .unknown ann => (p.name, ann) :: unknownsOf rest
    | _ => unknownsOf rest

/-- Whether a parameter is classified as unknown (payload slot). -/
def isUnknown : ParamKind → Bool
  | .unknown _ => true
  | _ => false

/-- Keyword-argument lookup with Python dict-assignment semantics: the
last binding of a name wins. -/
def kwGet (n : String) : List (String × Value) → Option Value
  | [] => Option.none
  | (m, v) :: rest =>
    match kwGet n rest with
    | Option.some w => Option.some w
    | Option.none => if m = n then Option.some v else Option.none

/-- The teardowns `run_with_lifespan_handling` registers for one shape. -/
def teardownsOf (shape : FuncShape) (f : Nat) : List Teardown :=
  match shape with
  | .gen ce => [⟨f, ce⟩]
  | .asyncgen ce => [⟨f, ce⟩]
  | .coroutine => []
  | .plain => []

/-! ### Concrete environments used as witnesses -/

/-- The diamond dependency graph of the spec's testable properties:
`C = 0`, `A = 1`, `B = 2`, handler `H = 3`; `H` depends on `A` and `B`,
which both depend on `C` with caching enabled; `C`, `A`, `B` are sync
generators. -/
def diamondEnv : Env :=
  [ { params := [], call := fun _ => .ok (.int 1),
      shape := .gen Option.none },
    { params := [⟨"c", .depends 0 true⟩], call := fun _ => .ok (.int 2),
      shape := .gen Option.none },
    { params := [⟨"c", .depends 0 true⟩], call := fun _ => .ok (.int 3),
      shape := .gen Option.none },
    { params := [⟨"a", .depends 1 true⟩, ⟨"b", .depends 2 true⟩],
      call := fun _ => .ok .none, shape := .plain } ]

/-- The diamond graph extended with an uncached dependency `U = 4`,
referenced with `use_cache=False` from both `A` and `B`: its body runs
twice per dispatch (cache bypass), while `C`'s — all of whose references
declare caching — still runs exactly once.  Ids: `C = 0`, `A = 1`,
`B = 2`, handler `H = 3`, `U = 4`. -/
def mixedEnv : Env :=
  [ { params := [], call := fun _ => .ok (.int 1), shape := .plain },
    { params := [⟨"c", .depends 0 true⟩, ⟨"u", .depends 4 false⟩],
      call := fun _ => .ok (.int 2), shape := .plain },
    { params := [⟨"c", .depends 0 true⟩, ⟨"u", .depends 4 false⟩],
      call := fun _ => .ok (.int 3), shape := .plain },
    { params := [⟨"a", .depends 1 true⟩, ⟨"b", .depends 2 true⟩],
      call := fun _ => .ok .none, shape := .plain },
    { params := [], call := fun _ => .ok (.int 4), shape := .plain } ]

/-- Rank function witnessing that `mixedEnv` is acyclic. -/
def mixedRank : Nat → Nat :=
  fun i => [0, 1, 1, 2, 0].getD i 0

/-- Rank function witnessing that `c5Env` is acyclic. -/
def c5Rank : Nat → Nat :=
  fun i => [0, 1].getD i 0

/-- A generator dependency (`0`, yielding the single value `gval`)
consumed by a handler (`1`) whose body produces `hres` — possibly an
exception. -/
def c3Env (isAsync : Bool) (gval : Value) (hres : Except PyErr Value) :
    Env :=
  [ { params := [], call := fun _ => .ok gval,
      shape := if isAsync then .asyncgen Option.none else .gen Option.none },
    { params := [⟨"g", .depends 0 true⟩], call := fun _ => hres,
      shape := .plain } ]

/-- A handler whose single unknown parameter is annotated with a Pydantic
model requiring a string field `name`. -/
def userModel : ModelClass :=
  { name := "UserModel", fields := [("name", .str)] }

def c4Env : Env :=
  [ { params := [⟨"payload", .unknown (Option.some userModel)⟩],
      call := fun _ => .ok .none, shape := .plain } ]

/-- A handler taking the raw payload whose own body raises a `TypeError`
even on a well-formed mapping payload. -/
def c9Env : Env :=
  [ { params := [⟨"payload", .unknown Option.none⟩],
      call := fun _ => .error (.typeError "unhashable type"), shape := .plain } ]

/-- A failing dependency (`0`) referenced by a handler (`1`). -/
def c5Env : Env :=
  [ { params := [], call := fun _ => .error (.other "boom"), shape := .plain },
    { params := [⟨"dep", .depends 0 true⟩], call := fun _ => .ok .none,
      shape := .plain } ]

/-- The diamond graph with a cleanup failure in `A` (callable `1`): its
post-yield half raises, so teardown order `B, A, C` aborts before `C`. -/
def c10Env : Env :=
  [ { params := [], call := fun _ => .ok (.int 1),
      shape := .gen Option.none },
    { params := [⟨"c", .depends 0 true⟩], call := fun _ => .ok (.int 2),
      shape := .gen (Option.some (.other "cleanup failed")) },
    { params := [⟨"c", .depends 0 true⟩], call := fun _ => .ok (.int 3),
      shape := .gen Option.none },
    { params := [⟨"a", .depends 1 true⟩, ⟨"b", .depends 2 true⟩],
      call := fun _ => .ok .none, shape := .plain } ]

/-! ### Helper lemmas -/

theorem runTeardownList_all_none (tds : List Teardown) (st : DispatchState)
    (h : ∀ t ∈ tds, t.err = Option.none) :
    runTeardownList tds st =
      (Option.none,
        { st with trace := st.trace ++ tds.map (fun t => .cleanup t.f) }) := by
  induction tds generalizing st with
  | nil => simp [runTeardownList]
  | cons t rest ih =>
    have ht : t.err = Option.none := h t (List.mem_cons_self _ _)
    have hrest : ∀ u ∈ rest, u.err = Option.none :=
      fun u hu => h u (List.mem_cons_of_mem _ hu)
    simp [runTeardownList, ht, ih _ hrest, List.append_assoc]

theorem run_teardowns_all_none (st : DispatchState)
    (h : ∀ t ∈ st.teardowns, t.err = Option.none) :
    run_teardowns st =
      (Option.none,
        { st with trace := st.trace ++
            st.teardowns.reverse.map (fun t => .cleanup t.f) }) := by
  unfold run_teardowns
  exact runTeardownList_all_none _ _ (fun t ht => h t (List.mem_reverse.mp ht))

theorem runTeardownList_prefix_none (xs rest : List Teardown)
    (st : DispatchState) (h : ∀ t ∈ xs, t.err = Option.none) :
    runTeardownList (xs ++ rest) st =
      runTeardownList rest
        { st with trace := st.trace ++ xs.map (fun t => .cleanup t.f) } := by
  induction xs generalizing st with
  | nil => simp
  | cons t tail ih =>
    have ht : t.err = Option.none := h t (List.mem_cons_self _ _)
    have htail : ∀ u ∈ tail, u.err = Option.none :=
      fun u hu => h u (List.mem_cons_of_mem _ hu)
    simp [runTeardownList, ht, ih _ htail, List.append_assoc]

theorem runWith_eq (env : Env) (f : Nat) (kws : List (String × Value))
    (st : DispatchState) :
    run_with_lifespan_handling env f kws st =
      match (getF env f).call kws with
      | .error e => (.error e, { st with trace := st.trace ++ [.invoke f] })
      | .ok v => (.ok v, { st with trace := st.trace ++ [.invoke f], teardowns := st.teardowns ++ teardownsOf (getF env f).shape f }) := by
  unfold run_with_lifespan_handling
  cases (getF env f).call kws with
  | error e => rfl
  | ok v => cases (getF env f).shape <;> simp [teardownsOf]

theorem cacheGet_write_self (f : Nat) (v : Value)
    (c : List (CacheKey × Value)) :
    cacheGet (.func f) (writeCache f v c) = Option.some v := by
  simp [cacheGet, writeCache]

theorem cacheGet_write_ne (f g : Nat) (v : Value)
    (c : List (CacheKey × Value)) (h : g ≠ f) :
    cacheGet (.func g) (writeCache f v c) = cacheGet (.func g) c := by
  simp only [cacheGet, writeCache]
  rw [if_neg]
  intro hc
  injection hc with hfg
  exact h hfg.symm

theorem cacheGet_write_of_ne (k : CacheKey) (f : Nat)
    (hk : k ≠ CacheKey.func f) (v : Value) (c : List (CacheKey × Value)) :
    cacheGet k (writeCache f v c) = cacheGet k c := by
  simp only [cacheGet, writeCache]
  rw [if_neg]
  intro hc
  exact hk hc.symm

theorem runWith_cache (env : Env) (f : Nat) (kws : List (String × Value))
    (st : DispatchState) :
    ((run_with_lifespan_handling env f kws st).2).cache = st.cache := by
  rw [runWith_eq]
  cases (getF env f).call kws <;> rfl

theorem runWith_ok_call (env : Env) (f : Nat) (kws : List (String × Value))
    (st : DispatchState) (v : Value) (st2 : DispatchState)
    (h : run_with_lifespan_handling env f kws st = (.ok v, st2)) :
    (getF env f).call kws = .ok v := by
  rw [runWith_eq] at h
  cases hc : (getF env f).call kws with
  | error e =>
    rw [hc] at h
    obtain ⟨h1, -⟩ := Prod.mk.injEq .. ▸ h
    exact absurd h1 (by simp)
  | ok w =>
    rw [hc] at h
    obtain ⟨h1, -⟩ := Prod.mk.injEq .. ▸ h
    exact h1

/-- A state predicate preserved by the solver is preserved by the
extraction loop: every state change in the loop goes through the solver. -/
theorem extractLoop_preserves (P : DispatchState → Prop)
    (sv : Nat → Bool → DispatchState →
      Option (Except PyErr Value × DispatchState))
    (hsv : ∀ d uc s r s', sv d uc s = Option.some (r, s') → P s → P s')
    (ps : List Param) : ∀ (st : DispatchState)
    (r : Except PyErr (List (String × Value) × List (String × Option ModelClass)))
    (st' : DispatchState),
    extractLoop sv ps st = Option.some (r, st') → P st → P st' := by
  induction ps with
  | nil =>
    intro st r st' h hp
    simp only [extractLoop] at h
    obtain ⟨-, rfl⟩ := Prod.mk.injEq .. ▸ Option.some.inj h
    exact hp
  | cons p rest ih =>
    intro st r st' h hp
    cases hk : p.kind with
    | depends d uc =>
      simp only [extractLoop, hk] at h
      cases hsvr : sv d uc st with
      | none => rw [hsvr] at h; exact absurd h (by simp)
      | some pr =>
        obtain ⟨rv, s1⟩ := pr
        rw [hsvr] at h
        have hp1 : P s1 := hsv d uc st rv s1 hsvr hp
        cases rv with
        | error e =>
          simp only at h
          obtain ⟨-, rfl⟩ := Prod.mk.injEq .. ▸ Option.some.inj h
          exact hp1
        | ok v =>
          simp only at h
          cases hrec : extractLoop sv rest s1 with
          | none => rw [hrec] at h; exact absurd h (by simp)
          | some pr2 =>
            obtain ⟨rv2, s2⟩ := pr2
            rw [hrec] at h
            cases rv2 with
            | error e =>
              simp only at h
              obtain ⟨-, rfl⟩ := Prod.mk.injEq .. ▸ Option.some.inj h
              exact ih s1 _ s2 hrec hp1
            | ok kwsus =>
              obtain ⟨kws, us⟩ := kwsus
              simp only at h
              obtain ⟨-, rfl⟩ := Prod.mk.injEq .. ▸ Option.some.inj h
              exact ih s1 _ s2 hrec hp1
    | sid =>
      simp only [extractLoop, hk] at h
      cases hrec : extractLoop sv rest st with
      | none => rw [hrec] at h; exact absurd h (by simp)
      | some pr2 =>
        obtain ⟨rv2, s2⟩ := pr2
        rw [hrec] at h
        cases rv2 with
        | error e =>
          simp only at h
          obtain ⟨-, rfl⟩ := Prod.mk.injEq .. ▸ Option.some.inj h
          exact ih st _ s2 hrec hp
        | ok kwsus =>
          obtain ⟨kws, us⟩ := kwsus
          simp only at h
          obtain ⟨-, rfl⟩ := Prod.mk.injEq .. ▸ Option.some.inj h
          exact ih st _ s2 hrec hp
    | environ =>
      simp only [extractLoop, hk] at h
      cases hrec : extractLoop sv rest st with
      | none => rw [hrec] at h; exact absurd h (by simp)
      | some pr2 =>
        obtain ⟨rv2, s2⟩ := pr2
        rw [hrec] at h
        cases rv2 with
        | error e =>
          simp only at h
          obtain ⟨-, rfl⟩ := Prod.mk.injEq .. ▸ Option.some.inj h
          exact ih st _ s2 hrec hp
        | ok kwsus =>
          obtain ⟨kws, us⟩ := kwsus
          simp only at h
          obtain ⟨-, rfl⟩ := Prod.mk.injEq .. ▸ Option.some.inj h
          exact ih st _ s2 hrec hp
    | defaulted v =>
      simp only [extractLoop, hk] at h
      cases hrec : extractLoop sv rest st with
      | none => rw [hrec] at h; exact absurd h (by simp)
      | some pr2 =>
        obtain ⟨rv2, s2⟩ := pr2
        rw [hrec] at h
        cases rv2 with
        | error e =>
          simp only at h
          obtain ⟨-, rfl⟩ := Prod.mk.injEq .. ▸ Option.some.inj h
          exact ih st _ s2 hrec hp
        | ok kwsus =>
          obtain ⟨kws, us⟩ := kwsus
          simp only at h
          obtain ⟨-, rfl⟩ := Prod.mk.injEq .. ▸ Option.some.inj h
          exact ih st _ s2 hrec hp
    | unknown ann =>
      simp only [extractLoop, hk] at h
      cases hrec : extractLoop sv rest st with
      | none => rw [hrec] at h; exact absurd h (by simp)
      | some pr2 =>
        obtain ⟨rv2, s2⟩ := pr2
        rw [hrec] at h
        cases rv2 with
        | error e =>
          simp only at h
          obtain ⟨-, rfl⟩ := Prod.mk.injEq .. ▸ Option.some.inj h
          exact ih st _ s2 hrec hp
        | ok kwsus =>
          obtain ⟨kws, us⟩ := kwsus
          simp only at h
          obtain ⟨-, rfl⟩ := Prod.mk.injEq .. ▸ Option.some.inj h
          exact ih st _ s2 hrec hp

/-- The final payload-binding pass changes no state, so the whole
`extract_kwargs_from_signature` also preserves solver-preserved
predicates. -/
theorem extract_kwargs_preserves (P : DispatchState → Prop)
    (sv : Nat → Bool → DispatchState →
      Option (Except PyErr Value × DispatchState))
    (hsv : ∀ d uc s r s', sv d uc s = Option.some (r, s') → P s → P s')
    (ps : List Param) (st : DispatchState)
    (r : Except PyErr (List (String × Value))) (st' : DispatchState)
    (h : extract_kwargs_from_signature sv ps st = Option.some (r, st'))
    (hp : P st) : P st' := by
  unfold extract_kwargs_from_signature at h
  cases hl : extractLoop sv ps st with
  | none => rw [hl] at h; exact absurd h (by simp)
  | some pr =>
    obtain ⟨rv, s1⟩ := pr
    rw [hl] at h
    have hp1 : P s1 := extractLoop_preserves P sv hsv ps st rv s1 hl hp
    cases rv with
    | error e =>
      simp only at h
      obtain ⟨-, rfl⟩ := Prod.mk.injEq .. ▸ Option.some.inj h
      exact hp1
    | ok kwsus =>
      obtain ⟨kws, us⟩ := kwsus
      simp only at h
      cases us with
      | nil =>
        obtain ⟨-, rfl⟩ := Prod.mk.injEq .. ▸ Option.some.inj h
        exact hp1
      | cons u utail =>
        obtain ⟨n, ann⟩ := u
        have h2 : (match resolve_unknown_param ann s1.cache with
            | .error e => Option.some ((.error e :
                Except PyErr (List (String × Value))), s1)
            | .ok v => Option.some (.ok (kws ++ [(n, v)]), s1)) =
            Option.some (r, st') := h
        cases hr : resolve_unknown_param ann s1.cache with
        | error e =>
          rw [hr] at h2
          obtain ⟨-, rfl⟩ := Prod.mk.injEq .. ▸ Option.some.inj h2
          exact hp1
        | ok v =>
          rw [hr] at h2
          obtain ⟨-, rfl⟩ := Prod.mk.injEq .. ▸ Option.some.inj h2
          exact hp1

/-- A cache key that can never be successfully written — either it is not a
callable key at all, or its callable's body always raises — is untouched by
the solver: `cache[func] = result` only runs after a successful body. -/
theorem solve_preserves_key (env : Env) (K : CacheKey)
    (hnw : ∀ (g : Nat) (kws : List (String × Value)) (v : Value),
      K = CacheKey.func g → (getF env g).call kws = .ok v → False) :
    ∀ (fuel f : Nat) (uc : Bool) (st : DispatchState)
      (r : Except PyErr Value) (st' : DispatchState),
      solve_dependency env fuel f uc st = Option.some (r, st') →
      cacheGet K st'.cache = cacheGet K st.cache := by
  intro fuel
  induction fuel with
  | zero =>
    intro f uc st r st' h
    exact absurd h (by simp [solve_dependency])
  | succ n ih =>
    intro f uc st r st' h
    rw [solve_dependency] at h
    split at h
    · obtain ⟨-, rfl⟩ := Prod.mk.injEq .. ▸ Option.some.inj h
      rfl
    · cases hext : extract_kwargs_from_signature (solve_dependency env n)
          (getF env f).params st with
      | none => rw [hext] at h; exact absurd h (by simp)
      | some pr =>
        obtain ⟨rv, s1⟩ := pr
        rw [hext] at h
        have hpre : cacheGet K s1.cache = cacheGet K st.cache :=
          extract_kwargs_preserves
            (fun s => cacheGet K s.cache = cacheGet K st.cache)
            (solve_dependency env n)
            (fun d uc2 s r2 s' hs hp => (ih d uc2 s r2 s' hs).trans hp)
            (getF env f).params st rv s1 hext rfl
        cases rv with
        | error e =>
          obtain ⟨-, rfl⟩ := Prod.mk.injEq .. ▸ Option.some.inj h
          exact hpre
        | ok kws =>
          have h2 : (match run_with_lifespan_handling env f kws s1 with
              | (.error e, st2) => Option.some ((.error e :
                  Except PyErr Value), st2)
              | (.ok v, st2) => Option.some (.ok v,
                  if uc = true then { st2 with
                    cache := writeCache f v st2.cache } else st2)) =
              Option.some (r, st') := h
          cases hrw : run_with_lifespan_handling env f kws s1 with
          | mk rv2 s2 =>
            rw [hrw] at h2
            have hs2 : s2.cache = s1.cache := by
              have hq := runWith_cache env f kws s1
              rw [hrw] at hq
              exact hq
            cases rv2 with
            | error e =>
              obtain ⟨-, rfl⟩ := Prod.mk.injEq .. ▸ Option.some.inj h2
              rw [hs2]
              exact hpre
            | ok v =>
              obtain ⟨-, rfl⟩ := Prod.mk.injEq .. ▸ Option.some.inj h2
              by_cases hKf : K = CacheKey.func f
              · exact absurd (runWith_ok_call env f kws s1 v s2 hrw)
                  (fun hcall => hnw f kws v hKf hcall)
              · cases uc with
                | false =>
                  simp only [Bool.false_eq_true, if_false]
                  rw [hs2]
                  exact hpre
                | true =>
                  simp only [if_true]
                  rw [cacheGet_write_of_ne K f hKf, hs2]
                  exact hpre

theorem unknownsOf_eq_nil (ps : List Param)
    (h : ∀ p ∈ ps, isUnknown p.kind = false) : unknownsOf ps = [] := by
  induction ps with
  | nil => rfl
  | cons p rest ih =>
    have hp := h p (List.mem_cons_self _ _)
    have hr := ih (fun q hq => h q (List.mem_cons_of_mem _ hq))
    cases hk : p.kind with
    | unknown ann => rw [hk] at hp; exact absurd hp (by simp [isUnknown])
    | depends d uc => simp only [unknownsOf, hk]; exact hr
    | sid => simp only [unknownsOf, hk]; exact hr
    | environ => simp only [unknownsOf, hk]; exact hr
    | defaulted v => simp only [unknownsOf, hk]; exact hr

theorem unknownsOf_append (l1 l2 : List Param) :
    unknownsOf (l1 ++ l2) = unknownsOf l1 ++ unknownsOf l2 := by
  induction l1 with
  | nil => rfl
  | cons p rest ih =>
    cases hk : p.kind <;>
      simp only [List.cons_append, unknownsOf, hk, List.append_eq, ih]

theorem kwGet_append_last (n : String) (v : Value)
    (xs : List (String × Value)) :
    kwGet n (xs ++ [(n, v)]) = Option.some v := by
  induction xs with
  | nil => simp [kwGet]
  | cons x rest ih =>
    obtain ⟨m, w⟩ := x
    simp only [List.cons_append, kwGet, List.append_eq, ih]

theorem validateModel_ok_shape (mc : ModelClass)
    (entries : List (String × Value)) (v : Value)
    (h : validateModel mc entries = .ok v) :
    ∃ flds, v = .model mc.name flds := by
  unfold validateModel at h
  split at h
  · exact ⟨modelFields mc entries, (Except.ok.inj h).symm⟩
  · exact absurd h (by simp)

/-- In a successful pass of the extraction loop, the collected unknown
parameters are exactly the unknown-classified parameters in declaration
order. -/
theorem extractLoop_unknowns
    (sv : Nat → Bool → DispatchState →
      Option (Except PyErr Value × DispatchState))
    (ps : List Param) : ∀ (st : DispatchState)
    (kws : List (String × Value)) (us : List (String × Option ModelClass))
    (st' : DispatchState),
    extractLoop sv ps st = Option.some (.ok (kws, us), st') →
    us = unknownsOf ps := by
  induction ps with
  | nil =>
    intro st kws us st' h
    simp only [extractLoop] at h
    obtain ⟨h1, -⟩ := Prod.mk.injEq .. ▸ Option.some.inj h
    obtain ⟨-, h3⟩ := Prod.mk.injEq .. ▸ Except.ok.inj h1
    exact h3.symm
  | cons p rest ih =>
    intro st kws us st' h
    cases hk : p.kind with
    | depends d uc =>
      simp only [extractLoop, hk] at h
      cases hsvr : sv d uc st with
      | none => rw [hsvr] at h; exact absurd h (by simp)
      | some pr =>
        obtain ⟨rv, s1⟩ := pr
        rw [hsvr] at h
        cases rv with
        | error e =>
          simp only at h
          obtain ⟨h1, -⟩ := Prod.mk.injEq .. ▸ Option.some.inj h
          exact absurd h1 (by simp)
        | ok v =>
          simp only at h
          cases hrec : extractLoop sv rest s1 with
          | none => rw [hrec] at h; exact absurd h (by simp)
          | some pr2 =>
            obtain ⟨rv2, s2⟩ := pr2
            rw [hrec] at h
            cases rv2 with
            | error e =>
              simp only at h
              obtain ⟨h1, -⟩ := Prod.mk.injEq .. ▸ Option.some.inj h
              exact absurd h1 (by simp)
            | ok kwsus =>
              obtain ⟨kws2, us2⟩ := kwsus
              simp only at h
              obtain ⟨h1, -⟩ := Prod.mk.injEq .. ▸ Option.some.inj h
              obtain ⟨-, h3⟩ := Prod.mk.injEq .. ▸ Except.ok.inj h1
              simp only [unknownsOf, hk]
              exact h3.symm.trans (ih s1 kws2 us2 s2 hrec)
    | sid =>
      simp only [extractLoop, hk] at h
      cases hrec : extractLoop sv rest st with
      | none => rw [hrec] at h; exact absurd h (by simp)
      | some pr2 =>
        obtain ⟨rv2, s2⟩ := pr2
        rw [hrec] at h
        cases rv2 with
        | error e =>
          simp only at h
          obtain ⟨h1, -⟩ := Prod.mk.injEq .. ▸ Option.some.inj h
          exact absurd h1 (by simp)
        | ok kwsus =>
          obtain ⟨kws2, us2⟩ := kwsus
          simp only at h
          obtain ⟨h1, -⟩ := Prod.mk.injEq .. ▸ Option.some.inj h
          obtain ⟨-, h3⟩ := Prod.mk.injEq .. ▸ Except.ok.inj h1
          simp only [unknownsOf, hk]
          exact h3.symm.trans (ih st kws2 us2 s2 hrec)
    | environ =>
      simp only [extractLoop, hk] at h
      cases hrec : extractLoop sv rest st with
      | none => rw [hrec] at h; exact absurd h (by simp)
      | some pr2 =>
        obtain ⟨rv2, s2⟩ := pr2
        rw [hrec] at h
        cases rv2 with
        | error e =>
          simp only at h
          obtain ⟨h1, -⟩ := Prod.mk.injEq .. ▸ Option.some.inj h
          exact absurd h1 (by simp)
        | ok kwsus =>
          obtain ⟨kws2, us2⟩ := kwsus
          simp only at h
          obtain ⟨h1, -⟩ := Prod.mk.injEq .. ▸ Option.some.inj h
          obtain ⟨-, h3⟩ := Prod.mk.injEq .. ▸ Except.ok.inj h1
          simp only [unknownsOf, hk]
          exact h3.symm.trans (ih st kws2 us2 s2 hrec)
    | defaulted v =>
      simp only [extractLoop, hk] at h
      cases hrec : extractLoop sv rest st with
      | none => rw [hrec] at h; exact absurd h (by simp)
      | some pr2 =>
        obtain ⟨rv2, s2⟩ := pr2
        rw [hrec] at h
        cases rv2 with
        | error e =>
          simp only at h
          obtain ⟨h1, -⟩ := Prod.mk.injEq .. ▸ Option.some.inj h
          exact absurd h1 (by simp)
        | ok kwsus =>
          obtain ⟨kws2, us2⟩ := kwsus
          simp only at h
          obtain ⟨h1, -⟩ := Prod.mk.injEq .. ▸ Option.some.inj h
          obtain ⟨-, h3⟩ := Prod.mk.injEq .. ▸ Except.ok.inj h1
          simp only [unknownsOf, hk]
          exact h3.symm.trans (ih st kws2 us2 s2 hrec)
    | unknown ann =>
      simp only [extractLoop, hk] at h
      cases hrec : extractLoop sv rest st with
      | none => rw [hrec] at h; exact absurd h (by simp)
      | some pr2 =>
        obtain ⟨rv2, s2⟩ := pr2
        rw [hrec] at h
        cases rv2 with
        | error e =>
          simp only at h
          obtain ⟨h1, -⟩ := Prod.mk.injEq .. ▸ Option.some.inj h
          exact absurd h1 (by simp)
        | ok kwsus =>
          obtain ⟨kws2, us2⟩ := kwsus
          simp only at h
          obtain ⟨h1, -⟩ := Prod.mk.injEq .. ▸ Option.some.inj h
          obtain ⟨-, h3⟩ := Prod.mk.injEq .. ▸ Except.ok.inj h1
          simp only [unknownsOf, hk]
          rw [h3.symm.trans (congrArg (List.cons (p.name, ann))
            (ih st kws2 us2 s2 hrec))]

theorem exactFor_weak (c : Nat) (st : DispatchState) (h : ExactFor c st) :
    WeakFor c st := by
  rw [ExactFor] at h
  rw [WeakFor, h]
  split <;> omega

theorem countInvoke_append (g : Nat) (t1 t2 : List Event) :
    countInvoke g (t1 ++ t2) = countInvoke g t1 + countInvoke g t2 :=
  List.count_append _ _ _

theorem countInvoke_single (g f : Nat) :
    countInvoke g [Event.invoke f] = if f = g then 1 else 0 := by
  by_cases h : f = g
  · subst h
    simp [countInvoke]
  · rw [if_neg h]
    have h2 : ¬g = f := fun hc => h hc.symm
    simp [countInvoke, List.count_eq_zero, h2]

theorem countInvoke_nil (g : Nat) : countInvoke g [] = 0 := rfl

theorem getF_ge (env : Env) (i : Nat) (h : env.length ≤ i) :
    getF env i = defaultFunc := by
  unfold getF
  exact List.getD_eq_default _ _ h

/-- Rank-bounded effect of the extraction loop, with no assumption on any
`use_cache` flag: every callable whose invocation count or cache entry
changes during the loop has rank strictly below the bound dominating the
loop's `Depends` parameters. -/
theorem extractLoop_growth (rank : Nat → Nat) (bound : Nat)
    (sv : Nat → Bool → DispatchState →
      Option (Except PyErr Value × DispatchState))
    (hsv : ∀ (d : Nat) (uc : Bool) (s : DispatchState)
      (r : Except PyErr Value) (s' : DispatchState), rank d < bound →
      sv d uc s = Option.some (r, s') →
      ∀ K : Nat, (countInvoke K s'.trace = countInvoke K s.trace ∧
        cacheGet (.func K) s'.cache = cacheGet (.func K) s.cache) ∨
        rank K ≤ rank d)
    (ps : List Param)
    (hps : ∀ p ∈ ps, ∀ d uc, p.kind = .depends d uc → rank d < bound) :
    ∀ (st : DispatchState)
    (rv : Except PyErr
      (List (String × Value) × List (String × Option ModelClass)))
    (st' : DispatchState),
    extractLoop sv ps st = Option.some (rv, st') →
    ∀ K : Nat, (countInvoke K st'.trace = countInvoke K st.trace ∧
      cacheGet (.func K) st'.cache = cacheGet (.func K) st.cache) ∨
      rank K < bound := by
  induction ps with
  | nil =>
    intro st rv st' h K
    simp only [extractLoop] at h
    obtain ⟨-, h2⟩ := Prod.mk.injEq .. ▸ Option.some.inj h
    rw [← h2]
    exact Or.inl ⟨rfl, rfl⟩
  | cons p rest ih =>
    intro st rv st' h K
    have hrest := fun q hq => hps q (List.mem_cons_of_mem _ hq)
    cases hk : p.kind with
    | depends d uc =>
      have hlt : rank d < bound :=
        hps p (List.mem_cons_self _ _) d uc hk
      simp only [extractLoop, hk] at h
      cases hsvr : sv d uc st with
      | none => rw [hsvr] at h; exact absurd h (by simp)
      | some pr =>
        obtain ⟨rv1, s1⟩ := pr
        rw [hsvr] at h
        have hstep := hsv d uc st rv1 s1 hlt hsvr K
        cases rv1 with
        | error e =>
          simp only at h
          obtain ⟨-, h2⟩ := Prod.mk.injEq .. ▸ Option.some.inj h
          rw [← h2]
          rcases hstep with hu | hb
          · exact Or.inl hu
          · exact Or.inr (lt_of_le_of_lt hb hlt)
        | ok v =>
          simp only at h
          cases hrec : extractLoop sv rest s1 with
          | none => rw [hrec] at h; exact absurd h (by simp)
          | some pr2 =>
            obtain ⟨rv2, s2⟩ := pr2
            rw [hrec] at h
            have hstep2 := ih hrest s1 rv2 s2 hrec K
            cases rv2 with
            | error e =>
              simp only at h
              obtain ⟨-, h2⟩ := Prod.mk.injEq .. ▸ Option.some.inj h
              rw [← h2]
              rcases hstep2 with ⟨hc2, hh2⟩ | hb2
              · rcases hstep with ⟨hc1, hh1⟩ | hb1
                · exact Or.inl ⟨hc2.trans hc1, hh2.trans hh1⟩
                · exact Or.inr (lt_of_le_of_lt hb1 hlt)
              · exact Or.inr hb2
            | ok kwsus2 =>
              obtain ⟨kws2, us2⟩ := kwsus2
              simp only at h
              obtain ⟨-, h2⟩ := Prod.mk.injEq .. ▸ Option.some.inj h
              rw [← h2]
              rcases hstep2 with ⟨hc2, hh2⟩ | hb2
              · rcases hstep with ⟨hc1, hh1⟩ | hb1
                · exact Or.inl ⟨hc2.trans hc1, hh2.trans hh1⟩
                · exact Or.inr (lt_of_le_of_lt hb1 hlt)
              · exact Or.inr hb2
    | sid =>
      simp only [extractLoop, hk] at h
      cases hrec : extractLoop sv rest st with
      | none => rw [hrec] at h; exact absurd h (by simp)
      | some pr2 =>
        obtain ⟨rv2, s2⟩ := pr2
        rw [hrec] at h
        have hstep2 := ih hrest st rv2 s2 hrec K
        cases rv2 with
        | error e =>
          simp only at h
          obtain ⟨-, h2⟩ := Prod.mk.injEq .. ▸ Option.some.inj h
          rw [← h2]
          exact hstep2
        | ok kwsus2 =>
          obtain ⟨kws2, us2⟩ := kwsus2
          simp only at h
          obtain ⟨-, h2⟩ := Prod.mk.injEq .. ▸ Option.some.inj h
          rw [← h2]
          exact hstep2
    | environ =>
      simp only [extractLoop, hk] at h
      cases hrec : extractLoop sv rest st with
      | none => rw [hrec] at h; exact absurd h (by simp)
      | some pr2 =>
        obtain ⟨rv2, s2⟩ := pr2
        rw [hrec] at h
        have hstep2 := ih hrest st rv2 s2 hrec K
        cases rv2 with
        | error e =>
          simp only at h
          obtain ⟨-, h2⟩ := Prod.mk.injEq .. ▸ Option.some.inj h
          rw [← h2]
          exact hstep2
        | ok kwsus2 =>
          obtain ⟨kws2, us2⟩ := kwsus2
          simp only at h
          obtain ⟨-, h2⟩ := Prod.mk.injEq .. ▸ Option.some.inj h
          rw [← h2]
          exact hstep2
    | defaulted v =>
      simp only [extractLoop, hk] at h
      cases hrec : extractLoop sv rest st with
      | none => rw [hrec] at h; exact absurd h (by simp)
      | some pr2 =>
        obtain ⟨rv2, s2⟩ := pr2
        rw [hrec] at h
        have hstep2 := ih hrest st rv2 s2 hrec K
        cases rv2 with
        | error e =>
          simp only at h
          obtain ⟨-, h2⟩ := Prod.mk.injEq .. ▸ Option.some.inj h
          rw [← h2]
          exact hstep2
        | ok kwsus2 =>
          obtain ⟨kws2, us2⟩ := kwsus2
          simp only at h
          obtain ⟨-, h2⟩ := Prod.mk.injEq .. ▸ Option.some.inj h
          rw [← h2]
          exact hstep2
    | unknown ann =>
      simp only [extractLoop, hk] at h
      cases hrec : extractLoop sv rest st with
      | none => rw [hrec] at h; exact absurd h (by simp)
      | some pr2 =>
        obtain ⟨rv2, s2⟩ := pr2
        rw [hrec] at h
        have hstep2 := ih hrest st rv2 s2 hrec K
        cases rv2 with
        | error e =>
          simp only at h
          obtain ⟨-, h2⟩ := Prod.mk.injEq .. ▸ Option.some.inj h
          rw [← h2]
          exact hstep2
        | ok kwsus2 =>
          obtain ⟨kws2, us2⟩ := kwsus2
          simp only at h
          obtain ⟨-, h2⟩ := Prod.mk.injEq .. ▸ Option.some.inj h
          rw [← h2]
          exact hstep2

/-- The growth bound lifts through the payload-binding pass, which never
touches the state. -/
theorem extract_kwargs_growth (rank : Nat → Nat) (bound : Nat)
    (sv : Nat → Bool → DispatchState →
      Option (Except PyErr Value × DispatchState))
    (hsv : ∀ (d : Nat) (uc : Bool) (s : DispatchState)
      (r : Except PyErr Value) (s' : DispatchState), rank d < bound →
      sv d uc s = Option.some (r, s') →
      ∀ K : Nat, (countInvoke K s'.trace = countInvoke K s.trace ∧
        cacheGet (.func K) s'.cache = cacheGet (.func K) s.cache) ∨
        rank K ≤ rank d)
    (ps : List Param)
    (hps : ∀ p ∈ ps, ∀ d uc, p.kind = .depends d uc → rank d < bound)
    (st : DispatchState) (rv : Except PyErr (List (String × Value)))
    (st' : DispatchState)
    (h : extract_kwargs_from_signature sv ps st = Option.some (rv, st')) :
    ∀ K : Nat, (countInvoke K st'.trace = countInvoke K st.trace ∧
      cacheGet (.func K) st'.cache = cacheGet (.func K) st.cache) ∨
      rank K < bound := by
  intro K
  unfold extract_kwargs_from_signature at h
  cases hl : extractLoop sv ps st with
  | none => rw [hl] at h; exact absurd h (by simp)
  | some pr =>
    obtain ⟨rv1, s1⟩ := pr
    rw [hl] at h
    have hloop := extractLoop_growth rank bound sv hsv ps hps st rv1 s1 hl K
    cases rv1 with
    | error e =>
      obtain ⟨-, h2⟩ := Prod.mk.injEq .. ▸ Option.some.inj h
      rw [← h2]
      exact hloop
    | ok kwsus =>
      obtain ⟨kws0, us⟩ := kwsus
      cases us with
      | nil =>
        obtain ⟨-, h2⟩ := Prod.mk.injEq .. ▸ Option.some.inj h
        rw [← h2]
        exact hloop
      | cons u utail =>
        obtain ⟨n, ann⟩ := u
        have h2 : (match resolve_unknown_param ann s1.cache with
            | .error e => Option.some ((.error e :
                Except PyErr (List (String × Value))), s1)
            | .ok v => Option.some (.ok (kws0 ++ [(n, v)]), s1)) =
            Option.some (rv, st') := h
        cases hr : resolve_unknown_param ann s1.cache with
        | error e =>
          rw [hr] at h2
          obtain ⟨-, h3⟩ := Prod.mk.injEq .. ▸ Option.some.inj h2
          rw [← h3]
          exact hloop
        | ok v =>
          rw [hr] at h2
          obtain ⟨-, h3⟩ := Prod.mk.injEq .. ▸ Option.some.inj h2
          rw [← h3]
          exact hloop

/-- Rank-bounded effect of `solve_dependency`, for any caching flags:
every callable whose invocation count or cache entry changes has rank at
most the rank of the callable being solved. -/
theorem solve_growth (env : Env) (rank : Nat → Nat)
    (hR : Ranked env rank) :
    ∀ (fuel g : Nat) (uc : Bool) (st : DispatchState)
    (r : Except PyErr Value) (st' : DispatchState),
    solve_dependency env fuel g uc st = Option.some (r, st') →
    ∀ K : Nat, (countInvoke K st'.trace = countInvoke K st.trace ∧
      cacheGet (.func K) st'.cache = cacheGet (.func K) st.cache) ∨
      rank K ≤ rank g := by
  intro fuel
  induction fuel with
  | zero =>
    intro g uc st r st' h
    exact absurd h (by simp [solve_dependency])
  | succ n ih =>
    intro g uc st r st' h K
    rw [solve_dependency] at h
    split at h
    · obtain ⟨-, h2⟩ := Prod.mk.injEq .. ▸ Option.some.inj h
      rw [← h2]
      exact Or.inl ⟨rfl, rfl⟩
    · have hps : ∀ p ∈ (getF env g).params, ∀ d uc2,
          p.kind = .depends d uc2 → rank d < rank g := by
        intro p hp d uc2 hk
        have hr := hR g p hp
        rw [hk] at hr
        exact of_decide_eq_true hr
      cases hext : extract_kwargs_from_signature (solve_dependency env n)
          (getF env g).params st with
      | none => rw [hext] at h; exact absurd h (by simp)
      | some pr =>
        obtain ⟨rv1, s1⟩ := pr
        rw [hext] at h
        have hgrow := extract_kwargs_growth rank (rank g)
          (solve_dependency env n)
          (fun d uc2 sR r2 s2 _ hsolve => ih d uc2 sR r2 s2 hsolve)
          (getF env g).params hps st rv1 s1 hext K
        cases rv1 with
        | error e =>
          obtain ⟨-, h2⟩ := Prod.mk.injEq .. ▸ Option.some.inj h
          rw [← h2]
          rcases hgrow with hu | hb
          · exact Or.inl hu
          · exact Or.inr (le_of_lt hb)
        | ok kws =>
          have h2 : (match run_with_lifespan_handling env g kws s1 with
              | (.error e, st2) => Option.some ((.error e :
                  Except PyErr Value), st2)
              | (.ok v, st2) => Option.some (.ok v,
                  if uc = true then { st2 with
                    cache := writeCache g v st2.cache } else st2)) =
              Option.some (r, st') := h
          rw [runWith_eq] at h2
          by_cases hKg : K = g
          · exact Or.inr (hKg ▸ le_refl _)
          cases hcall : (getF env g).call kws with
          | error e =>
            rw [hcall] at h2
            obtain ⟨-, h3⟩ := Prod.mk.injEq .. ▸ Option.some.inj h2
            rw [← h3]
            rcases hgrow with ⟨hc1, hh1⟩ | hb
            · refine Or.inl ⟨?_, hh1⟩
              dsimp only
              rw [countInvoke_append, countInvoke_single,
                if_neg (fun hc => hKg hc.symm), Nat.add_zero, hc1]
            · exact Or.inr (le_of_lt hb)
          | ok v =>
            rw [hcall] at h2
            cases uc with
            | false =>
              simp only [Bool.false_eq_true, if_false] at h2
              obtain ⟨-, h3⟩ := Prod.mk.injEq .. ▸ Option.some.inj h2
              rw [← h3]
              rcases hgrow with ⟨hc1, hh1⟩ | hb
              · refine Or.inl ⟨?_, hh1⟩
                dsimp only
                rw [countInvoke_append, countInvoke_single,
                  if_neg (fun hc => hKg hc.symm), Nat.add_zero, hc1]
              · exact Or.inr (le_of_lt hb)
            | true =>
              simp only [if_true] at h2
              obtain ⟨-, h3⟩ := Prod.mk.injEq .. ▸ Option.some.inj h2
              rw [← h3]
              rcases hgrow with ⟨hc1, hh1⟩ | hb
              · refine Or.inl ⟨?_, ?_⟩
                · dsimp only
                  rw [countInvoke_append, countInvoke_single,
                    if_neg (fun hc => hKg hc.symm), Nat.add_zero, hc1]
                · dsimp only
                  rw [cacheGet_write_ne g K v _ hKg]
                  exact hh1
              · exact Or.inr (le_of_lt hb)

/-- The per-callable invariant step for the extraction loop: when every
`Depends` reference to callable `c` among the parameters declares
`use_cache=True`, a successful pass preserves the exactly-once state for
`c`, and a failing pass still leaves `c`'s body with at most one
execution.  Other parameters may carry any caching flag. -/
theorem extractLoop_exactFor (c : Nat)
    (sv : Nat → Bool → DispatchState →
      Option (Except PyErr Value × DispatchState))
    (hsv : ∀ (d : Nat) (uc : Bool) (s : DispatchState)
      (r : Except PyErr Value) (s' : DispatchState), (d = c → uc = true) →
      sv d uc s = Option.some (r, s') → ExactFor c s →
      ((∀ v, r = .ok v → ExactFor c s') ∧
       (∀ e, r = .error e → WeakFor c s')))
    (ps : List Param)
    (hps : ∀ p ∈ ps, refToCached c p.kind = true) :
    ∀ (st : DispatchState)
    (rv : Except PyErr
      (List (String × Value) × List (String × Option ModelClass)))
    (st' : DispatchState),
    extractLoop sv ps st = Option.some (rv, st') → ExactFor c st →
    ((∀ kwsus, rv = .ok kwsus → ExactFor c st') ∧
     (∀ e, rv = .error e → WeakFor c st')) := by
  induction ps with
  | nil =>
    intro st rv st' h hex
    simp only [extractLoop] at h
    obtain ⟨h1, h2⟩ := Prod.mk.injEq .. ▸ Option.some.inj h
    refine ⟨fun kwsus hok => ?_, fun e herr => ?_⟩
    · rw [← h2]
      exact hex
    · rw [← h1] at herr
      exact absurd herr (by simp)
  | cons p rest ih =>
    intro st rv st' h hex
    have hp := hps p (List.mem_cons_self _ _)
    have hrest := fun q hq => hps q (List.mem_cons_of_mem _ hq)
    cases hk : p.kind with
    | depends d uc =>
      rw [hk] at hp
      have hdc : d = c → uc = true := by
        intro hdc
        subst hdc
        simpa [refToCached] using hp
      simp only [extractLoop, hk] at h
      cases hsvr : sv d uc st with
      | none => rw [hsvr] at h; exact absurd h (by simp)
      | some pr =>
        obtain ⟨rv1, s1⟩ := pr
        rw [hsvr] at h
        have hstep := hsv d uc st rv1 s1 hdc hsvr hex
        cases rv1 with
        | error e =>
          simp only at h
          obtain ⟨h1, h2⟩ := Prod.mk.injEq .. ▸ Option.some.inj h
          refine ⟨fun kwsus hok => ?_, fun e2 herr => ?_⟩
          · rw [← h1] at hok
            exact absurd hok (by simp)
          · rw [← h2]
            exact hstep.2 e rfl
        | ok v =>
          simp only at h
          have hex1 := hstep.1 v rfl
          cases hrec : extractLoop sv rest s1 with
          | none => rw [hrec] at h; exact absurd h (by simp)
          | some pr2 =>
            obtain ⟨rv2, s2⟩ := pr2
            rw [hrec] at h
            have hstep2 := ih hrest s1 rv2 s2 hrec hex1
            cases rv2 with
            | error e =>
              simp only at h
              obtain ⟨h1, h2⟩ := Prod.mk.injEq .. ▸ Option.some.inj h
              refine ⟨fun kwsus hok => ?_, fun e2 herr => ?_⟩
              · rw [← h1] at hok
                exact absurd hok (by simp)
              · rw [← h2]
                exact hstep2.2 e rfl
            | ok kwsus2 =>
              obtain ⟨kws2, us2⟩ := kwsus2
              simp only at h
              obtain ⟨h1, h2⟩ := Prod.mk.injEq .. ▸ Option.some.inj h
              refine ⟨fun kwsus hok => ?_, fun e2 herr => ?_⟩
              · rw [← h2]
                exact hstep2.1 (kws2, us2) rfl
              · rw [← h1] at herr
                exact absurd herr (by simp)
    | sid =>
      simp only [extractLoop, hk] at h
      cases hrec : extractLoop sv rest st with
      | none => rw [hrec] at h; exact absurd h (by simp)
      | some pr2 =>
        obtain ⟨rv2, s2⟩ := pr2
        rw [hrec] at h
        have hstep2 := ih hrest st rv2 s2 hrec hex
        cases rv2 with
        | error e =>
          simp only at h
          obtain ⟨h1, h2⟩ := Prod.mk.injEq .. ▸ Option.some.inj h
          refine ⟨fun kwsus hok => ?_, fun e2 herr => ?_⟩
          · rw [← h1] at hok
            exact absurd hok (by simp)
          · rw [← h2]
            exact hstep2.2 e rfl
        | ok kwsus2 =>
          obtain ⟨kws2, us2⟩ := kwsus2
          simp only at h
          obtain ⟨h1, h2⟩ := Prod.mk.injEq .. ▸ Option.some.inj h
          refine ⟨fun kwsus hok => ?_, fun e2 herr => ?_⟩
          · rw [← h2]
            exact hstep2.1 (kws2, us2) rfl
          · rw [← h1] at herr
            exact absurd herr (by simp)
    | environ =>
      simp only [extractLoop, hk] at h
      cases hrec : extractLoop sv rest st with
      | none => rw [hrec] at h; exact absurd h (by simp)
      | some pr2 =>
        obtain ⟨rv2, s2⟩ := pr2
        rw [hrec] at h
        have hstep2 := ih hrest st rv2 s2 hrec hex
        cases rv2 with
        | error e =>
          simp only at h
          obtain ⟨h1, h2⟩ := Prod.mk.injEq .. ▸ Option.some.inj h
          refine ⟨fun kwsus hok => ?_, fun e2 herr => ?_⟩
          · rw [← h1] at hok
            exact absurd hok (by simp)
          · rw [← h2]
            exact hstep2.2 e rfl
        | ok kwsus2 =>
          obtain ⟨kws2, us2⟩ := kwsus2
          simp only at h
          obtain ⟨h1, h2⟩ := Prod.mk.injEq .. ▸ Option.some.inj h
          refine ⟨fun kwsus hok => ?_, fun e2 herr => ?_⟩
          · rw [← h2]
            exact hstep2.1 (kws2, us2) rfl
          · rw [← h1] at herr
            exact absurd herr (by simp)
    | defaulted v =>
      simp only [extractLoop, hk] at h
      cases hrec : extractLoop sv rest st with
      | none => rw [hrec] at h; exact absurd h (by simp)
      | some pr2 =>
        obtain ⟨rv2, s2⟩ := pr2
        rw [hrec] at h
        have hstep2 := ih hrest st rv2 s2 hrec hex
        cases rv2 with
        | error e =>
          simp only at h
          obtain ⟨h1, h2⟩ := Prod.mk.injEq .. ▸ Option.some.inj h
          refine ⟨fun kwsus hok => ?_, fun e2 herr => ?_⟩
          · rw [← h1] at hok
            exact absurd hok (by simp)
          · rw [← h2]
            exact hstep2.2 e rfl
        | ok kwsus2 =>
          obtain ⟨kws2, us2⟩ := kwsus2
          simp only at h
          obtain ⟨h1, h2⟩ := Prod.mk.injEq .. ▸ Option.some.inj h
          refine ⟨fun kwsus hok => ?_, fun e2 herr => ?_⟩
          · rw [← h2]
            exact hstep2.1 (kws2, us2) rfl
          · rw [← h1] at herr
            exact absurd herr (by simp)
    | unknown ann =>
      simp only [extractLoop, hk] at h
      cases hrec : extractLoop sv rest st with
      | none => rw [hrec] at h; exact absurd h (by simp)
      | some pr2 =>
        obtain ⟨rv2, s2⟩ := pr2
        rw [hrec] at h
        have hstep2 := ih hrest st rv2 s2 hrec hex
        cases rv2 with
        | error e =>
          simp only at h
          obtain ⟨h1, h2⟩ := Prod.mk.injEq .. ▸ Option.some.inj h
          refine ⟨fun kwsus hok => ?_, fun e2 herr => ?_⟩
          · rw [← h1] at hok
            exact absurd hok (by simp)
          · rw [← h2]
            exact hstep2.2 e rfl
        | ok kwsus2 =>
          obtain ⟨kws2, us2⟩ := kwsus2
          simp only at h
          obtain ⟨h1, h2⟩ := Prod.mk.injEq .. ▸ Option.some.inj h
          refine ⟨fun kwsus hok => ?_, fun e2 herr => ?_⟩
          · rw [← h2]
            exact hstep2.1 (kws2, us2) rfl
          · rw [← h1] at herr
            exact absurd herr (by simp)

/-- The per-callable invariant lifts through the payload-binding pass. -/
theorem extract_kwargs_exactFor (c : Nat)
    (sv : Nat → Bool → DispatchState →
      Option (Except PyErr Value × DispatchState))
    (hsv : ∀ (d : Nat) (uc : Bool) (s : DispatchState)
      (r : Except PyErr Value) (s' : DispatchState), (d = c → uc = true) →
      sv d uc s = Option.some (r, s') → ExactFor c s →
      ((∀ v, r = .ok v → ExactFor c s') ∧
       (∀ e, r = .error e → WeakFor c s')))
    (ps : List Param)
    (hps : ∀ p ∈ ps, refToCached c p.kind = true)
    (st : DispatchState) (rv : Except PyErr (List (String × Value)))
    (st' : DispatchState)
    (h : extract_kwargs_from_signature sv ps st = Option.some (rv, st'))
    (hex : ExactFor c st) :
    ((∀ kws, rv = .ok kws → ExactFor c st') ∧
     (∀ e, rv = .error e → WeakFor c st')) := by
  unfold extract_kwargs_from_signature at h
  cases hl : extractLoop sv ps st with
  | none => rw [hl] at h; exact absurd h (by simp)
  | some pr =>
    obtain ⟨rv1, s1⟩ := pr
    rw [hl] at h
    have hloop := extractLoop_exactFor c sv hsv ps hps st rv1 s1 hl hex
    cases rv1 with
    | error e =>
      obtain ⟨h1, h2⟩ := Prod.mk.injEq .. ▸ Option.some.inj h
      refine ⟨fun kws hok => ?_, fun e2 herr => ?_⟩
      · rw [← h1] at hok
        exact absurd hok (by simp)
      · rw [← h2]
        exact hloop.2 e rfl
    | ok kwsus =>
      obtain ⟨kws0, us⟩ := kwsus
      have hex1 := hloop.1 (kws0, us) rfl
      cases us with
      | nil =>
        obtain ⟨h1, h2⟩ := Prod.mk.injEq .. ▸ Option.some.inj h
        refine ⟨fun kws hok => ?_, fun e2 herr => ?_⟩
        · rw [← h2]
          exact hex1
        · rw [← h1] at herr
          exact absurd herr (by simp)
      | cons u utail =>
        obtain ⟨n, ann⟩ := u
        have h2 : (match resolve_unknown_param ann s1.cache with
            | .error e => Option.some ((.error e :
                Except PyErr (List (String × Value))), s1)
            | .ok v => Option.some (.ok (kws0 ++ [(n, v)]), s1)) =
            Option.some (rv, st') := h
        cases hr : resolve_unknown_param ann s1.cache with
        | error e =>
          rw [hr] at h2
          obtain ⟨h3, h4⟩ := Prod.mk.injEq .. ▸ Option.some.inj h2
          refine ⟨fun kws hok => ?_, fun e2 herr => ?_⟩
          · rw [← h3] at hok
            exact absurd hok (by simp)
          · rw [← h4]
            exact exactFor_weak c s1 hex1
        | ok v =>
          rw [hr] at h2
          obtain ⟨h3, h4⟩ := Prod.mk.injEq .. ▸ Option.some.inj h2
          refine ⟨fun kws hok => ?_, fun e2 herr => ?_⟩
          · rw [← h4]
            exact hex1
          · rw [← h3] at herr
            exact absurd herr (by simp)

/-- The per-callable at-most-once invariant of `solve_dependency`: if every
reference to callable `c` declares `use_cache=True` (references to other
callables may use any flag) and the graph is acyclic, then solving any
callable — with caching on whenever the solved callable is `c` itself —
preserves `c`'s exactly-once state on success, and leaves `c`'s body with
at most one execution on failure. -/
theorem solve_exactFor (env : Env) (rank : Nat → Nat) (c : Nat)
    (hR : Ranked env rank) (hrefs : refsCached env c) :
    ∀ (fuel g : Nat) (uc : Bool) (st : DispatchState)
    (r : Except PyErr Value) (st' : DispatchState), (g = c → uc = true) →
    solve_dependency env fuel g uc st = Option.some (r, st') →
    ExactFor c st →
    ((∀ v, r = .ok v → ExactFor c st') ∧
     (∀ e, r = .error e → WeakFor c st')) := by
  intro fuel
  induction fuel with
  | zero =>
    intro g uc st r st' hgc h hex
    exact absurd h (by simp [solve_dependency])
  | succ n ih =>
    intro g uc st r st' hgc h hex
    rw [solve_dependency] at h
    split at h
    case isTrue hhit =>
      obtain ⟨h1, h2⟩ := Prod.mk.injEq .. ▸ Option.some.inj h
      refine ⟨fun v hok => ?_, fun e herr => ?_⟩
      · rw [← h2]
        exact hex
      · rw [← h1] at herr
        exact absurd herr (by simp)
    case isFalse hmiss =>
      cases hext : extract_kwargs_from_signature (solve_dependency env n)
          (getF env g).params st with
      | none => rw [hext] at h; exact absurd h (by simp)
      | some pr =>
        obtain ⟨rv1, s1⟩ := pr
        rw [hext] at h
        have hextstep := extract_kwargs_exactFor c
          (solve_dependency env n)
          (fun d uc2 sR r2 s2 hdc hsolve hexact =>
            ih d uc2 sR r2 s2 hdc hsolve hexact)
          (getF env g).params (fun p hp => hrefs g p hp) st rv1 s1 hext hex
        cases rv1 with
        | error e =>
          obtain ⟨h1, h2⟩ := Prod.mk.injEq .. ▸ Option.some.inj h
          refine ⟨fun v hok => ?_, fun e2 herr => ?_⟩
          · rw [← h1] at hok
            exact absurd hok (by simp)
          · rw [← h2]
            exact hextstep.2 e rfl
        | ok kws =>
          have hex1 := hextstep.1 kws rfl
          have h2 : (match run_with_lifespan_handling env g kws s1 with
              | (.error e, st2) => Option.some ((.error e :
                  Except PyErr Value), st2)
              | (.ok v, st2) => Option.some (.ok v,
                  if uc = true then { st2 with
                    cache := writeCache g v st2.cache } else st2)) =
              Option.some (r, st') := h
          rw [runWith_eq] at h2
          by_cases hgc2 : g = c
          · -- solving `c` itself: caching is on, `c` is not yet cached,
            -- and no step of the extraction touched `c`'s count or entry.
            subst hgc2
            have huc : uc = true := hgc rfl
            subst huc
            have hnc : (cacheGet (.func g) st.cache).isSome = false := by
              by_contra hc
              rw [Bool.not_eq_false] at hc
              exact hmiss ⟨rfl, hc⟩
            have hps : ∀ p ∈ (getF env g).params, ∀ d uc2,
                p.kind = .depends d uc2 → rank d < rank g := by
              intro p hp d uc2 hk
              have hr := hR g p hp
              rw [hk] at hr
              exact of_decide_eq_true hr
            have hgrow := extract_kwargs_growth rank (rank g)
              (solve_dependency env n)
              (fun d uc2 sR r2 s2 _ hsolve =>
                solve_growth env rank hR n d uc2 sR r2 s2 hsolve)
              (getF env g).params hps st (.ok kws) s1 hext g
            have hsame : countInvoke g s1.trace = countInvoke g st.trace ∧
                cacheGet (.func g) s1.cache = cacheGet (.func g) st.cache := by
              rcases hgrow with hu | hb
              · exact hu
              · exact absurd hb (lt_irrefl _)
            have hcount0 : countInvoke g s1.trace = 0 := by
              rw [hsame.1]
              rw [ExactFor] at hex
              rw [hex, hnc]
              simp
            have hnc1 : (cacheGet (.func g) s1.cache).isSome = false := by
              rw [hsame.2]
              exact hnc
            cases hcall : (getF env g).call kws with
            | error e =>
              rw [hcall] at h2
              obtain ⟨h3, h4⟩ := Prod.mk.injEq .. ▸ Option.some.inj h2
              refine ⟨fun v hok => ?_, fun e2 herr => ?_⟩
              · rw [← h3] at hok
                exact absurd hok (by simp)
              · rw [← h4]
                rw [WeakFor]
                dsimp only
                rw [countInvoke_append, countInvoke_single, if_pos rfl,
                  hcount0]
            | ok v =>
              rw [hcall] at h2
              simp only [if_true] at h2
              obtain ⟨h3, h4⟩ := Prod.mk.injEq .. ▸ Option.some.inj h2
              refine ⟨fun v2 hok => ?_, fun e2 herr => ?_⟩
              · rw [← h4]
                rw [ExactFor]
                dsimp only
                rw [countInvoke_append, countInvoke_single, if_pos rfl,
                  hcount0, cacheGet_write_self]
                simp
              · rw [← h3] at herr
                exact absurd herr (by simp)
          · -- solving a different callable: its invocation and cache write
            -- leave `c`'s count and entry untouched.
            have hinv : ∀ s2 : DispatchState,
                countInvoke c (s2.trace ++ [Event.invoke g]) =
                  countInvoke c s2.trace := by
              intro s2
              rw [countInvoke_append, countInvoke_single,
                if_neg hgc2, Nat.add_zero]
            cases hcall : (getF env g).call kws with
            | error e =>
              rw [hcall] at h2
              obtain ⟨h3, h4⟩ := Prod.mk.injEq .. ▸ Option.some.inj h2
              refine ⟨fun v hok => ?_, fun e2 herr => ?_⟩
              · rw [← h3] at hok
                exact absurd hok (by simp)
              · rw [← h4]
                refine exactFor_weak c _ ?_
                rw [ExactFor]
                dsimp only
                rw [hinv s1]
                exact hex1
            | ok v =>
              rw [hcall] at h2
              cases uc with
              | false =>
                simp only [Bool.false_eq_true, if_false] at h2
                obtain ⟨h3, h4⟩ := Prod.mk.injEq .. ▸ Option.some.inj h2
                refine ⟨fun v2 hok => ?_, fun e2 herr => ?_⟩
                · rw [← h4]
                  rw [ExactFor]
                  dsimp only
                  rw [hinv s1]
                  exact hex1
                · rw [← h3] at herr
                  exact absurd herr (by simp)
              | true =>
                simp only [if_true] at h2
                obtain ⟨h3, h4⟩ := Prod.mk.injEq .. ▸ Option.some.inj h2
                refine ⟨fun v2 hok => ?_, fun e2 herr => ?_⟩
                · rw [← h4]
                  rw [ExactFor]
                  dsimp only
                  rw [hinv s1,
                    cacheGet_write_ne g c v _ (fun hc => hgc2 hc.symm)]
                  exact hex1
                · rw [← h3] at herr
                  exact absurd herr (by simp)

/-! ### Claim theorems -/

/-- C7: connection-lifecycle argument shapes are normalized before the
handler runs: a 3-argument `connect` dispatch `(id, environment, payload)`
calls the handler as `(id, payload, environ=environment)`; a 2-argument
`connect` dispatch calls it as `(id, environ=environment)`; a `disconnect`
dispatch drops its last positional argument; every other event passes its
arguments through unchanged. -/
theorem call_handler_normalization :
    (∀ a0 a1 a2 : Value,
      call_handler "connect" [a0, a1, a2] = ⟨[a0, a2], Option.some a1⟩) ∧
    (∀ a0 a1 : Value,
      call_handler "connect" [a0, a1] = ⟨[a0], Option.some a1⟩) ∧
    (∀ args : List Value,
      call_handler "disconnect" args = ⟨args.dropLast, Option.none⟩) ∧
    (∀ (event : String) (args : List Value), event ≠ "connect" →
      event ≠ "disconnect" → call_handler event args = ⟨args, Option.none⟩) := by
  refine ⟨fun a0 a1 a2 => rfl, fun a0 a1 => rfl,
    fun args => by simp [call_handler], fun event args h1 h2 => ?_⟩
  simp [call_handler, h1, h2]

theorem call_handler_normalization_witness :
    call_handler "message" [.int 5, .int 6] =
      ⟨[.int 5, .int 6], Option.none⟩ :=
  call_handler_normalization.2.2.2 "message" [.int 5, .int 6]
    (by decide) (by decide)

/-- C8: the emit operation's serialization is deterministic and pure:
converting the same model twice with the same serializer name yields the
same plain mapping handed to the transport; when the named serializer
method is absent (or is `model_dump`) the generic `model_dump` conversion
is used; non-model values pass through unchanged. -/
theorem emit_serialization_deterministic (m : PModel) (s : String)
    (v : Value) (w : Value) :
    (emitWire (.model m) s = emitWire (.model m) s) ∧
    (m.methods.lookup s = Option.none →
      emitWire (.model m) s = .plain m.modelDump) ∧
    (s ≠ "model_dump" → m.methods.lookup s = Option.some w →
      emitWire (.model m) s = .plain w) ∧
    (emitWire (.plain v) s = .plain v) := by
  refine ⟨rfl, fun habs => ?_, fun hs hw => ?_, rfl⟩
  · simp [emitWire, pydantic_model_to_dict, habs]
  · simp [emitWire, pydantic_model_to_dict, hs, hw]

theorem emit_serialization_deterministic_witness :
    emitWire (.model ⟨[("serializable_dict", .dict [("id", .int 3)])],
      .dict []⟩) "serializable_dict" = .plain (.dict [("id", .int 3)]) :=
  (emit_serialization_deterministic
    ⟨[("serializable_dict", .dict [("id", .int 3)])], .dict []⟩
    "serializable_dict" .none (.dict [("id", .int 3)])).2.2.1
    (by decide) rfl

/-- C2: teardown callbacks run in strictly reverse registration order, each
completing before the next starts (`run_teardowns` awaits them one by one
over the reversed list); in particular, for the diamond dispatch whose
dependencies are resolved (and hence registered) in order `C, A, B`, the
cleanup events appear in order `B, A, C`. -/
theorem teardowns_reverse_order :
    (∀ st : DispatchState, (∀ t ∈ st.teardowns, t.err = Option.none) →
      run_teardowns st =
        (Option.none,
          { st with trace := st.trace ++
              st.teardowns.reverse.map (fun t => .cleanup t.f) })) ∧
    ((dispatchEvent diamondEnv 10 3 "evt" "s1" [] Option.none).map
        (fun r => (r.final.teardowns.map Teardown.f, r.final.trace)) =
      Option.some ([0, 1, 2],
        [.invoke 0, .invoke 1, .invoke 2, .invoke 3,
         .cleanup 2, .cleanup 1, .cleanup 0])) := by
  exact ⟨run_teardowns_all_none, rfl⟩

theorem teardowns_reverse_order_witness :
    run_teardowns ⟨[], [⟨5, Option.none⟩, ⟨7, Option.none⟩], []⟩ =
      (Option.none,
        ⟨[], [⟨5, Option.none⟩, ⟨7, Option.none⟩],
          [.cleanup 7, .cleanup 5]⟩) :=
  teardowns_reverse_order.1 ⟨[], [⟨5, Option.none⟩, ⟨7, Option.none⟩], []⟩
    (by decide)

/-- C3: a dependency implemented as a (sync or async) generator yielding
one value has its post-yield cleanup half executed exactly once, after the
handler's body runs, whether the handler returns normally or raises: the
dispatch trace is `[invoke gen, invoke handler, cleanup gen]` for every
handler outcome `hres`. -/
theorem generator_cleanup_once (isAsync : Bool) (gval : Value)
    (hres : Except PyErr Value) :
    ((dispatchEvent (c3Env isAsync gval hres) 10 1 "evt" "s" []
        Option.none).map (fun r => r.final.trace) =
      Option.some [.invoke 0, .invoke 1, .cleanup 0]) ∧
    ((dispatchEvent (c3Env isAsync gval hres) 10 1 "evt" "s" []
        Option.none).map (fun r => r.final.trace.count (.cleanup 0)) =
      Option.some 1) := by
  cases isAsync <;> cases hres <;> exact ⟨rfl, rfl⟩

/-- C10: a teardown exception aborts the drain: running the Lifespan
Context executes the reversed-order suffix up to and including the failing
callback, the callbacks registered before it never run, and the exception
propagates out of the dispatch's `finally` block as the wrapper's raised
exception. -/
theorem teardown_failure_aborts (tds1 tds2 : List Teardown) (t : Teardown)
    (e : PyErr) (hterr : t.err = Option.some e)
    (hok : ∀ u ∈ tds2, u.err = Option.none) :
    (∀ st : DispatchState, st.teardowns = tds1 ++ t :: tds2 →
      run_teardowns st =
        (Option.some e,
          { st with trace := st.trace ++
              tds2.reverse.map (fun u => .cleanup u.f) ++ [.cleanup t.f] })) ∧
    (∀ (env : Env) (fuel handler : Nat) (event sid : String)
      (args : List Value) (environ : Option Value)
      (res : Except PyErr Value) (st1 : DispatchState),
      solve_dependency env fuel handler true (seedState sid args environ) =
        Option.some (res, st1) →
      st1.teardowns = tds1 ++ t :: tds2 →
      (dispatchEvent env fuel handler event sid args environ).map
          (fun r => (r.raised, r.final.trace)) =
        Option.some (Option.some e,
          st1.trace ++ tds2.reverse.map (fun u => .cleanup u.f) ++
            [.cleanup t.f])) := by
  have key : ∀ st : DispatchState, st.teardowns = tds1 ++ t :: tds2 →
      run_teardowns st =
        (Option.some e,
          { st with trace := st.trace ++
              tds2.reverse.map (fun u => .cleanup u.f) ++ [.cleanup t.f] }) := by
    intro st hst
    obtain ⟨c, tds, tr⟩ := st
    dsimp only at hst
    subst hst
    unfold run_teardowns
    have hrev : (tds1 ++ t :: tds2).reverse =
        tds2.reverse ++ t :: tds1.reverse := by
      simp
    dsimp only
    rw [hrev, runTeardownList_prefix_none _ _ _
      (fun u hu => hok u (List.mem_reverse.mp hu))]
    simp [runTeardownList, hterr, List.append_assoc]
  refine ⟨key, fun env fuel handler event sid args environ res st1 hs hst => ?_⟩
  simp only [dispatchEvent, hs, key st1 hst, Option.map_some']

theorem teardown_failure_aborts_witness :
    run_teardowns ⟨[], [⟨0, Option.none⟩, ⟨1, Option.some (.other "cleanup failed")⟩,
        ⟨2, Option.none⟩], []⟩ =
      (Option.some (.other "cleanup failed"),
        ⟨[], [⟨0, Option.none⟩, ⟨1, Option.some (.other "cleanup failed")⟩,
          ⟨2, Option.none⟩], [.cleanup 2, .cleanup 1]⟩) :=
  (teardown_failure_aborts [⟨0, Option.none⟩]
      [⟨2, Option.none⟩] ⟨1, Option.some (.other "cleanup failed")⟩
      (.other "cleanup failed") rfl (by decide)).1
    ⟨[], [⟨0, Option.none⟩, ⟨1, Option.some (.other "cleanup failed")⟩,
      ⟨2, Option.none⟩], []⟩ rfl

/-- C4: on a payload-validation failure the wrapper emits, to the
originating connection only, an `error` event with the fixed invalid-payload
code 1007, the originating event name, and the semicolon-joined
field-path + lowercased-message description, then re-raises the validation
exception; the teardowns still run in the `finally` block. -/
theorem validation_error_feedback (env : Env) (fuel handler : Nat)
    (event sid : String) (args : List Value) (environ : Option Value)
    (errs : List (List String × String)) (st1 : DispatchState)
    (hs : solve_dependency env fuel handler true (seedState sid args environ) =
      Option.some (.error (.validation errs), st1))
    (hok : ∀ u ∈ st1.teardowns, u.err = Option.none) :
    dispatchEvent env fuel handler event sid args environ =
      Option.some
        ⟨[⟨sid, 1007, event, "Data Validation Error.",
            format_validation_errors errs⟩],
          Option.some (.validation errs),
          { st1 with trace := st1.trace ++
              st1.teardowns.reverse.map (fun t => .cleanup t.f) }⟩ ∧
    format_validation_errors errs =
      String.intercalate "; " (errs.map fun item =>
        String.intercalate "." item.1 ++ " " ++ lowerString item.2) := by
  refine ⟨?_, rfl⟩
  simp only [dispatchEvent, hs, run_teardowns_all_none st1 hok]

theorem validation_error_feedback_witness :
    dispatchEvent c4Env 10 0 "evt" "s4" [.dict [("name", .int 123)]]
        Option.none =
      Option.some
        ⟨[⟨"s4", 1007, "evt", "Data Validation Error.",
            "name input should be a valid string"⟩],
          Option.some (.validation [(["name"],
            "Input should be a valid string")]),
          ⟨[(.sid, .str "s4"), (.data, .dict [("name", .int 123)]),
            (.environ, .dict [])], [], []⟩⟩ :=
  (validation_error_feedback c4Env 10 0 "evt" "s4"
    [.dict [("name", .int 123)]] Option.none
    [(["name"], "Input should be a valid string")]
    ⟨[(.sid, .str "s4"), (.data, .dict [("name", .int 123)]),
      (.environ, .dict [])], [], []⟩ rfl (by simp)).1

/-- C9: the wrapper's `TypeError` interception is keyed on the exception
class alone: whenever the resolution of the handler (dependency resolution
or the handler's own body) surfaces a `TypeError` — whatever its message —
the wrapper emits the `error` event with the unsupported-data code 1003 and
a description naming the type of the raw payload, then re-raises the same
`TypeError`. -/
theorem typeerror_interception (env : Env) (fuel handler : Nat)
    (event sid : String) (args : List Value) (environ : Option Value)
    (m : String) (st1 : DispatchState)
    (hs : solve_dependency env fuel handler true (seedState sid args environ) =
      Option.some (.error (.typeError m), st1))
    (hok : ∀ u ∈ st1.teardowns, u.err = Option.none) :
    dispatchEvent env fuel handler event sid args environ =
      Option.some
        ⟨[⟨sid, 1003, event, "Data Type Error.",
            "TypeError: expected a \x27map\x27, but received an \x27" ++
              typeName (args.headD .none) ++ "\x27."⟩],
          Option.some (.typeError m),
          { st1 with trace := st1.trace ++
              st1.teardowns.reverse.map (fun t => .cleanup t.f) }⟩ := by
  simp only [dispatchEvent, hs, run_teardowns_all_none st1 hok]

theorem typeerror_interception_witness :
    dispatchEvent c9Env 10 0 "evt" "s9" [.dict [("name", .str "alice")]]
        Option.none =
      Option.some
        ⟨[⟨"s9", 1003, "evt", "Data Type Error.",
            "TypeError: expected a \x27map\x27, but received an \x27dict\x27."⟩],
          Option.some (.typeError "unhashable type"),
          ⟨[(.sid, .str "s9"), (.data, .dict [("name", .str "alice")]),
            (.environ, .dict [])], [], [.invoke 0]⟩⟩ :=
  typeerror_interception c9Env 10 0 "evt" "s9"
    [.dict [("name", .str "alice")]] Option.none "unhashable type"
    ⟨[(.sid, .str "s9"), (.data, .dict [("name", .str "alice")]),
      (.environ, .dict [])], [], [.invoke 0]⟩ rfl (by simp)

/-- C5: a failed dependency resolution — whether the exception arises
during its argument resolution or during its invocation — propagates and
writes no cache entry for the failed callable: when `solve_dependency`
surfaces an error for a callable, the Resolution Cache is unchanged with
respect to that callable (for any caching flag and any prior state), so a
subsequent reference within the same dispatch would re-run it in full.
The dependency graph is acyclic, witnessed by a rank function — a cyclic
graph never completes a dispatch in the source either. -/
theorem failed_resolution_not_cached (env : Env) (rank : Nat → Nat)
    (fuel f : Nat) (uc : Bool) (st : DispatchState) (e : PyErr)
    (st' : DispatchState) (hR : Ranked env rank)
    (hs : solve_dependency env fuel f uc st = Option.some (.error e, st')) :
    cacheGet (.func f) st'.cache = cacheGet (.func f) st.cache ∧
    (cacheGet (.func f) st.cache = Option.none →
      cacheGet (.func f) st'.cache = Option.none) := by
  have key : cacheGet (.func f) st'.cache = cacheGet (.func f) st.cache := by
    cases fuel with
    | zero => exact absurd hs (by simp [solve_dependency])
    | succ n =>
      rw [solve_dependency] at hs
      split at hs
      · obtain ⟨h1, -⟩ := Prod.mk.injEq .. ▸ Option.some.inj hs
        exact absurd h1 (by simp)
      · have hps : ∀ p ∈ (getF env f).params, ∀ d uc2,
            p.kind = .depends d uc2 → rank d < rank f := by
          intro p hp d uc2 hk
          have hr := hR f p hp
          rw [hk] at hr
          exact of_decide_eq_true hr
        cases hext : extract_kwargs_from_signature (solve_dependency env n)
            (getF env f).params st with
        | none => rw [hext] at hs; exact absurd hs (by simp)
        | some pr =>
          obtain ⟨rv1, s1⟩ := pr
          rw [hext] at hs
          have hgrow := extract_kwargs_growth rank (rank f)
            (solve_dependency env n)
            (fun d uc2 sR r2 s2 _ hsolve =>
              solve_growth env rank hR n d uc2 sR r2 s2 hsolve)
            (getF env f).params hps st rv1 s1 hext f
          have hsame : cacheGet (.func f) s1.cache =
              cacheGet (.func f) st.cache := by
            rcases hgrow with ⟨-, hu⟩ | hb
            · exact hu
            · exact absurd hb (lt_irrefl _)
          cases rv1 with
          | error e2 =>
            obtain ⟨-, h2⟩ := Prod.mk.injEq .. ▸ Option.some.inj hs
            rw [← h2]
            exact hsame
          | ok kws =>
            have h2 : (match run_with_lifespan_handling env f kws s1 with
                | (.error e3, st2) => Option.some ((.error e3 :
                    Except PyErr Value), st2)
                | (.ok v, st2) => Option.some (.ok v,
                    if uc = true then { st2 with
                      cache := writeCache f v st2.cache } else st2)) =
                Option.some (.error e, st') := hs
            rw [runWith_eq] at h2
            cases hcall : (getF env f).call kws with
            | error e3 =>
              rw [hcall] at h2
              obtain ⟨-, h3⟩ := Prod.mk.injEq .. ▸ Option.some.inj h2
              rw [← h3]
              exact hsame
            | ok v =>
              rw [hcall] at h2
              cases uc with
              | false =>
                simp only [Bool.false_eq_true, if_false] at h2
                obtain ⟨h3, -⟩ := Prod.mk.injEq .. ▸ Option.some.inj h2
                exact absurd h3 (by simp)
              | true =>
                simp only [if_true] at h2
                obtain ⟨h3, -⟩ := Prod.mk.injEq .. ▸ Option.some.inj h2
                exact absurd h3 (by simp)
  exact ⟨key, fun hnc => key.trans hnc⟩

theorem failed_resolution_not_cached_witness :
    cacheGet (.func 0) (⟨[(.sid, .str "s5"), (.data, Value.none),
        (.environ, .dict [])], [], [.invoke 0]⟩ : DispatchState).cache =
      Option.none ∧
    cacheGet (.func 1) (⟨[(.sid, .str "s5"), (.data, Value.none),
        (.environ, .dict [])], [], [.invoke 0]⟩ : DispatchState).cache =
      Option.none := by
  have hR : Ranked c5Env c5Rank := by
    intro i p hp
    rcases Nat.lt_or_ge i 2 with hlt | hge
    · interval_cases i <;> revert p hp <;> decide
    · rw [getF_ge c5Env i (by simpa [c5Env] using hge)] at hp
      simp [defaultFunc] at hp
  refine ⟨?_, ?_⟩
  · exact (failed_resolution_not_cached c5Env c5Rank 10 0 true
      (seedState "s5" [] Option.none) (.other "boom")
      ⟨[(.sid, .str "s5"), (.data, Value.none), (.environ, .dict [])], [],
        [.invoke 0]⟩ hR rfl).2 rfl
  · exact (failed_resolution_not_cached c5Env c5Rank 10 1 true
      (seedState "s5" [] Option.none) (.other "boom")
      ⟨[(.sid, .str "s5"), (.data, Value.none), (.environ, .dict [])], [],
        [.invoke 0]⟩ hR rfl).2 rfl

/-- C6: a handler with exactly one parameter that is neither a declared
dependency, nor a reserved marker, nor defaulted has that parameter bound
from the event payload: raw payload passed through unchanged when the
annotation is not a structured-model class, and otherwise the payload
mapping validated/coerced into an instance of that model class. -/
theorem unknown_param_payload_binding (env : Env) (fuel : Nat)
    (ps1 ps2 : List Param) (n : String) (ann : Option ModelClass)
    (st : DispatchState) (d : Value) (kws : List (String × Value))
    (st' : DispatchState)
    (h1 : ∀ p ∈ ps1, isUnknown p.kind = false)
    (h2 : ∀ p ∈ ps2, isUnknown p.kind = false)
    (hd : cacheGet .data st.cache = Option.some d)
    (hs : extract_kwargs_from_signature (solve_dependency env fuel)
      (ps1 ++ ⟨n, .unknown ann⟩ :: ps2) st = Option.some (.ok kws, st')) :
    (ann = Option.none → kwGet n kws = Option.some d) ∧
    (∀ mc, ann = Option.some mc → ∃ entries v, d = .dict entries ∧
      validateModel mc entries = .ok v ∧ kwGet n kws = Option.some v ∧
      ∃ flds, v = .model mc.name flds) := by
  have hnwD : ∀ (g : Nat) (kws2 : List (String × Value)) (v : Value),
      CacheKey.data = CacheKey.func g → (getF env g).call kws2 = .ok v →
      False := fun g kws2 v hKg _ => by cases hKg
  unfold extract_kwargs_from_signature at hs
  cases hl : extractLoop (solve_dependency env fuel)
      (ps1 ++ ⟨n, .unknown ann⟩ :: ps2) st with
  | none => rw [hl] at hs; exact absurd hs (by simp)
  | some pr =>
    obtain ⟨rv, s1⟩ := pr
    rw [hl] at hs
    cases rv with
    | error e =>
      obtain ⟨h1, -⟩ := Prod.mk.injEq .. ▸ Option.some.inj hs
      exact absurd h1 (by simp)
    | ok kwsus =>
      obtain ⟨kws0, us⟩ := kwsus
      have hus : us = [(n, ann)] := by
        have h3 := extractLoop_unknowns (solve_dependency env fuel)
          (ps1 ++ ⟨n, .unknown ann⟩ :: ps2) st kws0 us s1 hl
        rw [unknownsOf_append, unknownsOf_eq_nil ps1 h1] at h3
        simp only [unknownsOf, unknownsOf_eq_nil ps2 h2] at h3
        exact h3
      subst hus
      have hd1 : cacheGet .data s1.cache = Option.some d :=
        extractLoop_preserves
          (fun s => cacheGet CacheKey.data s.cache = Option.some d)
          (solve_dependency env fuel)
          (fun d2 uc2 s r2 s2 hsolve hp =>
            (solve_preserves_key env .data hnwD fuel d2 uc2 s r2 s2
              hsolve).trans hp)
          (ps1 ++ ⟨n, .unknown ann⟩ :: ps2) st _ s1 hl hd
      have h4 : (match resolve_unknown_param ann s1.cache with
          | .error e => Option.some ((.error e :
              Except PyErr (List (String × Value))), s1)
          | .ok v => Option.some (.ok (kws0 ++ [(n, v)]), s1)) =
          Option.some (.ok kws, st') := hs
      cases ann with
      | none =>
        have hres : resolve_unknown_param Option.none s1.cache =
            .ok d := by
          simp [resolve_unknown_param, hd1]
        rw [hres] at h4
        obtain ⟨h5, -⟩ := Prod.mk.injEq .. ▸ Option.some.inj h4
        obtain h6 := Except.ok.inj h5
        refine ⟨fun _ => ?_, fun mc hmc => by cases hmc⟩
        rw [← h6]
        exact kwGet_append_last n d kws0
      | some mc =>
        refine ⟨fun hcontra => (by cases hcontra), fun mc2 hmc => ?_⟩
        obtain rfl : mc = mc2 := Option.some.inj hmc
        cases d with
        | dict entries =>
          have hres : resolve_unknown_param (Option.some mc) s1.cache =
              validateModel mc entries := by
            simp [resolve_unknown_param, hd1]
          rw [hres] at h4
          cases hv : validateModel mc entries with
          | error e =>
            rw [hv] at h4
            obtain ⟨h5, -⟩ := Prod.mk.injEq .. ▸ Option.some.inj h4
            exact absurd h5 (by simp)
          | ok v =>
            rw [hv] at h4
            obtain ⟨h5, -⟩ := Prod.mk.injEq .. ▸ Option.some.inj h4
            obtain h6 := Except.ok.inj h5
            refine ⟨entries, v, rfl, hv, ?_,
              validateModel_ok_shape mc entries v hv⟩
            rw [← h6]
            exact kwGet_append_last n v kws0
        | none => simp [resolve_unknown_param, hd1] at h4
        | int m => simp [resolve_unknown_param, hd1] at h4
        | str sval => simp [resolve_unknown_param, hd1] at h4
        | bool b => simp [resolve_unknown_param, hd1] at h4
        | model mn mf => simp [resolve_unknown_param, hd1] at h4
        | list xs => simp [resolve_unknown_param, hd1] at h4

theorem unknown_param_payload_binding_witness :
    ∃ entries v, (Value.dict [("name", .str "alice")]) = .dict entries ∧
      validateModel userModel entries = .ok v ∧
      kwGet "payload" [("payload",
        .model "UserModel" [("name", .str "alice")])] = Option.some v ∧
      ∃ flds, v = .model userModel.name flds :=
  (unknown_param_payload_binding c4Env 10 [] [] "payload"
    (Option.some userModel)
    (seedState "s" [.dict [("name", .str "alice")]] Option.none)
    (.dict [("name", .str "alice")])
    [("payload", .model "UserModel" [("name", .str "alice")])]
    (seedState "s" [.dict [("name", .str "alice")]] Option.none)
    (fun p hp => absurd hp (by simp))
    (fun p hp => absurd hp (by simp)) rfl rfl).2 userModel rfl

/-- C1: per-callable at-most-once resolution.  For any dispatch over an
acyclic dependency graph (rank function; a cyclic graph never completes
in the source either) and any callable `c` all of whose `Depends`
references declare `use_cache=True` — references to other callables may
use any flag — a successful resolution of the handler leaves `c`'s body
executed exactly once if `c` ended up in the Resolution Cache and zero
times otherwise, regardless of how many handler parameters request `c`
directly or transitively.  In particular, for the diamond where handler
`H` depends on `A` and `B`, which both depend on the shared cached `C`,
one dispatch of `H` runs `C` exactly once. -/
theorem cached_dependency_executes_once (env : Env) (rank : Nat → Nat)
    (c fuel handler : Nat) (st : DispatchState) (v : Value)
    (st' : DispatchState) (hR : Ranked env rank)
    (hrefs : refsCached env c)
    (hex : countInvoke c st.trace =
      if (cacheGet (.func c) st.cache).isSome then 1 else 0)
    (hs : solve_dependency env fuel handler true st =
      Option.some (.ok v, st')) :
    countInvoke c st'.trace =
      if (cacheGet (.func c) st'.cache).isSome then 1 else 0 :=
  (solve_exactFor env rank c hR hrefs fuel handler true st (.ok v) st'
    (fun _ => rfl) hs hex).1 v rfl

theorem cached_dependency_executes_once_witness :
    countInvoke 0 ([.invoke 0, .invoke 4, .invoke 1, .invoke 4, .invoke 2,
      .invoke 3] : List Event) = 1 ∧
    countInvoke 4 ([.invoke 0, .invoke 4, .invoke 1, .invoke 4, .invoke 2,
      .invoke 3] : List Event) = 2 := by
  have hR : Ranked mixedEnv mixedRank := by
    intro i p hp
    rcases Nat.lt_or_ge i 5 with hlt | hge
    · interval_cases i <;> revert p hp <;> decide
    · rw [getF_ge mixedEnv i (by simpa [mixedEnv] using hge)] at hp
      simp [defaultFunc] at hp
  have hrefs : refsCached mixedEnv 0 := by
    intro i p hp
    rcases Nat.lt_or_ge i 5 with hlt | hge
    · interval_cases i <;> revert p hp <;> decide
    · rw [getF_ge mixedEnv i (by simpa [mixedEnv] using hge)] at hp
      simp [defaultFunc] at hp
  have h := cached_dependency_executes_once mixedEnv mixedRank 0 10 3
    (seedState "s1" [] Option.none) Value.none
    ⟨[(.func 3, Value.none), (.func 2, .int 3), (.func 1, .int 2),
      (.func 0, .int 1), (.sid, .str "s1"), (.data, Value.none),
      (.environ, .dict [])], [],
      [.invoke 0, .invoke 4, .invoke 1, .invoke 4, .invoke 2,
        .invoke 3]⟩ hR hrefs rfl rfl
  exact ⟨h.trans rfl, rfl⟩

end Spec2Proof
